import Mathlib

/-!
# KFS metadata core: identifier generator, replication monitor, properties loader

A shallow embedding of parts of the Kosmos File System sources:

* `UniqueID` (`src/cc/meta/meta.h`),
* `ChunkReplicator::HandleEvent` (`src/cc/meta/ChunkReplicator.cc`),
* `Properties` (`src/cc/common/properties.cc`),
* `ClientManager::Remove` (`src/cc/chunk/ClientManager.cc`),
* `Key`, `MetaNode` and its flags (`src/cc/meta/base.h`),
* `Meta`, `MetaDentry`, `MetaFattr`, `MetaChunkInfo` (`src/cc/meta/meta.h`).

Integer fields of the C++ code are `Int`s; an increment of a 64-bit signed
field is followed by an explicit reduction into the 64-bit signed range.
`std::string` is `List Char`.
-/

namespace KFS

/-! ## 64-bit signed integers -/

/-- Smallest value of a 64-bit signed integer. -/
def INT64_MIN : Int := -(2 ^ 63)

/-- Largest value of a 64-bit signed integer. -/
def INT64_MAX : Int := 2 ^ 63 - 1

/-- Modelled from the spec: `kfstypes.h` (the typedefs `seq_t`, `seqid_t`, `fid_t`) is not
among the sources; the spec calls the identifiers 64-bit, and `base.h` stores them in
`long long` key fields.  The value a 64-bit signed field holds after an arithmetic result
`x` is stored into it (two's complement reduction). -/
def wrapInt64 (x : Int) : Int := (x + 2 ^ 63) % 2 ^ 64 - 2 ^ 63

/-! ## `UniqueID` (meta.h) -/

/-- The class `UniqueID`: `n` is the id of the object, `seed` the generator seed. -/
structure UniqueID where
  n : Int
  seed : Int
  deriving DecidableEq, Repr

namespace UniqueID

/-- The constructor `UniqueID(seqid_t id, seqid_t s): n(id), seed(s)`. -/
def mk2 (id s : Int) : UniqueID := { n := id, seed := s }

/-- The constructor `UniqueID(): n(0), seed(0)`. -/
def mk0 : UniqueID := { n := 0, seed := 0 }

/-- The method `fid_t genid() { return ++seed; }`: the seed is incremented in place and the
new seed is returned.  The result is the returned id and the generator afterwards. -/
def genid (u : UniqueID) : Int × UniqueID :=
  let u1 : UniqueID := { u with seed := wrapInt64 (u.seed + 1) }
  (u1.seed, u1)

/-- The method `fid_t getseed() { return seed; }`. -/
def getseed (u : UniqueID) : Int := u.seed

/-- The method `void setseed(seqid_t s) { seed = s; }`. -/
def setseed (u : UniqueID) (s : Int) : UniqueID := { u with seed := s }

/-- The method `seqid_t id() const { return n; }`. -/
def id (u : UniqueID) : Int := u.n

/-- A run of `k` successive `genid()` calls on one generator: the ids returned, in call
order, and the generator afterwards. -/
def genidN : Nat → UniqueID → List Int × UniqueID
  | 0, u => ([], u)
  | k + 1, u =>
    let r := u.genid
    let rest := genidN k r.2
    (r.1 :: rest.1, rest.2)

end UniqueID

/-! ## `ChunkReplicator` (ChunkReplicator.cc) -/

/-- The event codes `EVENT_CMD_DONE` and `EVENT_TIMEOUT` come from `libkfsIO/Event.h`, which
is not among the sources; they are taken as parameters.  They label two cases of one
`switch`, so they are distinct. -/
structure EventCodes where
  EVENT_CMD_DONE : Int
  EVENT_TIMEOUT : Int
  distinct : EVENT_CMD_DONE ≠ EVENT_TIMEOUT

/-- One choice of the two event codes, for evaluating `HandleEvent` on concrete inputs. -/
def EventCodes.sample : EventCodes :=
  { EVENT_CMD_DONE := 8, EVENT_TIMEOUT := 9, distinct := by decide }

/-- The request object `mOp` of the monitor; `HandleEvent` touches only its `opSeqno`. -/
structure MetaChunkReplicationCheck where
  opSeqno : Int
  deriving DecidableEq, Repr

/-- The state `HandleEvent` reads and writes: the members `mInProgress` and `mOp` of the
`ChunkReplicator`, and the function-local `static seq_t seqNum`. -/
structure ChunkReplicator where
  mInProgress : Bool
  mOp : MetaChunkReplicationCheck
  seqNum : Int
  deriving DecidableEq, Repr

/-- How a call of `HandleEvent` ends: it returns a value, or `assert` aborts the process. -/
inductive Outcome where
  | returned (v : Int)
  | assertFailed
  deriving DecidableEq, Repr

/-- What one call of `HandleEvent` does: how it ends, the state afterwards, and the requests
handed to `submit_request` during the call (each as the op was when it was submitted). -/
structure HandleResult where
  outcome : Outcome
  state : ChunkReplicator
  submitted : List MetaChunkReplicationCheck
  deriving DecidableEq, Repr

namespace ChunkReplicator

/-- The constructor: `mInProgress(false), mOp(1, this)`.  The static `seqNum` is not a member;
its value at construction time is the argument (`1` when no event has been handled). -/
def new (seqNum : Int) : ChunkReplicator :=
  { mInProgress := false, mOp := { opSeqno := 1 }, seqNum := seqNum }

/-- The method `int ChunkReplicator::HandleEvent(int code, void *data)`.
`ndebug` says whether assertions are compiled out; `data` is the unused pointer argument. -/
def HandleEvent (ec : EventCodes) (ndebug : Bool) (self : ChunkReplicator)
    (code : Int) (data : Nat) : HandleResult :=
  let _unused := data
  if code = ec.EVENT_CMD_DONE then
    -- case EVENT_CMD_DONE: mInProgress = false; return 0;
    { outcome := .returned 0, state := { self with mInProgress := false }, submitted := [] }
  else if code = ec.EVENT_TIMEOUT then
    -- case EVENT_TIMEOUT:
    if self.mInProgress then
      { outcome := .returned 0, state := self, submitted := [] }
    else
      let op : MetaChunkReplicationCheck := { self.mOp with opSeqno := self.seqNum }
      let self1 : ChunkReplicator :=
        { mInProgress := true, mOp := op, seqNum := wrapInt64 (self.seqNum + 1) }
      { outcome := .returned 0, state := self1, submitted := [op] }
  else
    -- default: assert(!"Unknown event"); break;  ...  return 0;
    if ndebug then
      { outcome := .returned 0, state := self, submitted := [] }
    else
      { outcome := .assertFailed, state := self, submitted := [] }

/-- The state after a sequence of events is fed to `HandleEvent`, one call per event, each
event being a code and a data argument; `none` when a call aborted the process. -/
def runState (ec : EventCodes) (ndebug : Bool) (self : ChunkReplicator) :
    List (Int × Nat) → Option ChunkReplicator
  | [] => some self
  | e :: es =>
    let r := HandleEvent ec ndebug self e.1 e.2
    match r.outcome with
    | .returned _ => runState ec ndebug r.state es
    | .assertFailed => none

/-- All requests submitted while a sequence of events is fed to `HandleEvent`, in order. -/
def runSubmitted (ec : EventCodes) (ndebug : Bool) (self : ChunkReplicator) :
    List (Int × Nat) → List MetaChunkReplicationCheck
  | [] => []
  | e :: es =>
    let r := HandleEvent ec ndebug self e.1 e.2
    match r.outcome with
    | .returned _ => r.submitted ++ runSubmitted ec ndebug r.state es
    | .assertFailed => r.submitted

end ChunkReplicator

/-! ## `std::string` and `std::istream` operations used by properties.cc -/

/-- A `std::string`, as the list of its characters. -/
abbrev Str := List Char

/-- The member `s.find(c)`: the index of the first occurrence of `c`; `none` is `npos`. -/
def strFind : Str → Char → Option Nat
  | [], _ => none
  | x :: xs, c => if x = c then some 0 else (strFind xs c).map (· + 1)

/-- The member `s.find_first_not_of(delims)`: the index of the first character that is not
one of `delims`; `none` is `npos`. -/
def findFirstNotOf : Str → Str → Option Nat
  | [], _ => none
  | x :: xs, delims =>
    if x ∈ delims then (findFirstNotOf xs delims).map (· + 1) else some 0

/-- The member `s.find_last_not_of(delims)`: the index of the last character that is not one
of `delims`; `none` is `npos`. -/
def findLastNotOf : Str → Str → Option Nat
  | [], _ => none
  | x :: xs, delims =>
    match findLastNotOf xs delims with
    | some i => some (i + 1)
    | none => if x ∈ delims then none else some 0

/-- The member `s.substr(pos, n)`, with `n = none` for the default `npos`.  Both calls in
`loadProperties` have `pos ≤ s.size()`, so `out_of_range` is not thrown. -/
def substr (s : Str) (pos : Nat) (n : Option Nat) : Str :=
  match n with
  | none => s.drop pos
  | some k => (s.drop pos).take k

/-- The member `s.erase(pos, n)`, with `n = none` for `npos`.  Both calls in `removeLTSpaces`
have `pos ≤ s.size()`, so `out_of_range` is not thrown. -/
def erase (s : Str) (pos : Nat) (n : Option Nat) : Str :=
  match n with
  | none => s.take pos
  | some k => s.take pos ++ s.drop (pos + k)

/-- The expression `notwhite + 1` on a `size_type`: `npos` is the largest value of the
unsigned type, so `npos + 1` is `0`. -/
def sizeSucc : Option Nat → Nat
  | none => 0
  | some i => i + 1

/-- An input stream over an in-memory text without read errors: the characters not yet
read, and the state bits `eofbit` and `failbit`. -/
structure IStream where
  buf : Str
  eofbit : Bool
  failbit : Bool
  deriving DecidableEq, Repr

namespace IStream

/-- A freshly opened stream on a text. -/
def ofText (text : Str) : IStream := { buf := text, eofbit := false, failbit := false }

/-- The member `good()`: no state bit is set. -/
def good (ist : IStream) : Bool := !ist.eofbit && !ist.failbit

/-- The conversion used by `while(ist)`: true unless `fail()`. -/
def toBool (ist : IStream) : Bool := !ist.failbit

end IStream

/-- The function `std::getline(ist, line)`.  If the stream is not `good()` the sentry fails:
`failbit` is set and `line` is left as it was.  Otherwise `line` is erased and characters
are moved into it up to the next newline, which is read and dropped, or up to the end of the
text, which sets `eofbit`; when no character at all was read `failbit` is set. -/
def getline (ist : IStream) (line : Str) : IStream × Str :=
  if ist.good then
    match ist.buf with
    | [] => ({ ist with eofbit := true, failbit := true }, [])
    | c :: cs =>
      match strFind (c :: cs) '\n' with
      | some i => ({ ist with buf := (c :: cs).drop (i + 1) }, (c :: cs).take i)
      | none => ({ ist with buf := [], eofbit := true }, c :: cs)
  else
    ({ ist with failbit := true }, line)

/-! ## `Properties` (properties.cc) -/

/-- The comparison `a < b` of `std::string`: lexicographic by character code. -/
def strLess : Str → Str → Bool
  | _, [] => false
  | [], _ :: _ => true
  | a :: as, b :: bs => if a.val < b.val then true else if b.val < a.val then false
    else strLess as bs

/-- The member `propmap`, a `std::map<std::string, std::string>`: its entries in iteration
order. -/
abbrev PropMap := List (Str × Str)

namespace PropMap

/-- The member `find(key)` of the map: `none` is `end()`, otherwise the mapped value. -/
def find : PropMap → Str → Option Str
  | [], _ => none
  | (k, v) :: rest, key => if k = key then some v else find rest key

/-- The map after `m[key] = value` is stored: the entry of `key` is overwritten, or a new
entry is inserted at its place in key order. -/
def assign : PropMap → Str → Str → PropMap
  | [], key, value => [(key, value)]
  | (k, v) :: rest, key, value =>
    if k = key then (key, value) :: rest
    else if strLess key k then (key, value) :: (k, v) :: rest
    else (k, v) :: assign rest key value

/-- The member `operator[](key)`: the mapped value, and the map afterwards (an absent key is
first inserted with an empty value). -/
def subscript (m : PropMap) (key : Str) : Str × PropMap :=
  match m.find key with
  | some v => (v, m)
  | none => ([], m.assign key [])

end PropMap

/-- The set of characters trimmed by `removeLTSpaces`: `" \t\r\n"`. -/
def delims : Str := [' ', '\t', '\r', '\n']

/-- The method `Properties::removeLTSpaces`. -/
def removeLTSpaces (str : Str) : Str :=
  -- trim leading whitespace
  let notwhite := findFirstNotOf str delims
  let str1 := erase str 0 notwhite
  -- trim trailing whitespace
  let notwhite1 := findLastNotOf str1 delims
  erase str1 (sizeSucc notwhite1) none

/-- The state the loop of `loadProperties` changes besides the stream and `line`: the map
and the text written to `std::cout`. -/
structure LoadState where
  propmap : PropMap
  out : Str
  deriving DecidableEq, Repr

/-- The body of the loop of `loadProperties` after `getline`: what is done with `line`. -/
def loadLine (delimiter : Char) (verbose multiline : Bool) (line : Str) (s : LoadState) :
    LoadState :=
  if strFind line '#' = some 0 then s                    -- ignore comments
  else
    match strFind line delimiter with
    | none => s                                          -- ignore if no delimiter is found
    | some pos =>
      let key := removeLTSpaces (substr line 0 (some pos))
      let value := removeLTSpaces (substr line (pos + 1) none)
      let m1 :=
        if multiline then
          let r := s.propmap.subscript key                 -- (*propmap)[key] += value
          r.2.assign key (r.1 ++ value)
        else
          (s.propmap.subscript key).2.assign key value     -- (*propmap)[key] = value
      if verbose then
        let r := m1.subscript key
        { propmap := r.2,
          out := s.out ++ "Loading key ".toList ++ key ++ " with value ".toList ++ r.1 ++ ['\n'] }
      else
        { propmap := m1, out := s.out }

/-- The loop `while(ist) { getline(ist, line); ... }` of `loadProperties`, run for at most
`fuel` tests of the loop condition; `none` when the fuel runs out before the loop ends. -/
def loadLoop (delimiter : Char) (verbose multiline : Bool) :
    Nat → IStream → Str → LoadState → Option LoadState
  | 0, _, _, _ => none
  | fuel + 1, ist, line, s =>
    if ist.toBool then
      let g := getline ist line
      loadLoop delimiter verbose multiline fuel g.1 g.2 (loadLine delimiter verbose multiline g.2 s)
    else
      some s

/-- What a call of `loadProperties` leaves: the returned value, the map and the text written
to `std::cout`. -/
structure LoadResult where
  ret : Int
  propmap : PropMap
  out : Str
  deriving DecidableEq, Repr

/-- The method `Properties::loadProperties(std::istream &ist, char delimiter, bool verbose,
bool multiline)` on the map `m`.  The loop is given `ist.buf.length + 3` tests of its
condition, which `loadProperties_returns` shows to be enough for every stream. -/
def loadProperties (m : PropMap) (ist : IStream) (delimiter : Char) (verbose multiline : Bool) :
    Option LoadResult :=
  (loadLoop delimiter verbose multiline (ist.buf.length + 3) ist [] { propmap := m, out := [] }).map
    fun s => { ret := 0, propmap := s.propmap, out := s.out }

/-- The method `Properties::setValue`. -/
def setValue (m : PropMap) (key value : Str) : PropMap :=
  (m.subscript key).2.assign key value

/-- The overload `std::string getValue(std::string key, std::string def) const`: the value
returned and the map afterwards. -/
def getValue (m : PropMap) (key def_ : Str) : Str × PropMap :=
  if m.find key = none then (def_, m) else m.subscript key

/-- The overload `const char* getValue(std::string key, const char* def) const`; a
`const char*` is a C string or the null pointer (`none`). -/
def getValueCStr (m : PropMap) (key : Str) (def_ : Option Str) : Option Str × PropMap :=
  if m.find key = none then (def_, m)
  else let r := m.subscript key; (some r.1, r.2)

/-- The overload `int getValue(std::string key, int def)`; `atoi` is the C library
function. -/
def getValueInt (atoi : Str → Int) (m : PropMap) (key : Str) (def_ : Int) : Int × PropMap :=
  if m.find key = none then (def_, m)
  else let r := m.subscript key; (atoi r.1, r.2)

/-- The overload `long getValue(std::string key, long def)`; `atoll` is the C library
function and `toLong` the conversion from `long long` to `long`. -/
def getValueLong (atoll : Str → Int) (toLong : Int → Int) (m : PropMap) (key : Str)
    (def_ : Int) : Int × PropMap :=
  if m.find key = none then (def_, m)
  else let r := m.subscript key; (toLong (atoll r.1), r.2)

/-- The overload `long long getValue(std::string key, long long def)`. -/
def getValueLongLong (atoll : Str → Int) (m : PropMap) (key : Str) (def_ : Int) :
    Int × PropMap :=
  if m.find key = none then (def_, m)
  else let r := m.subscript key; (atoll r.1, r.2)

/-- The overload `uint64_t getValue(std::string key, uint64_t def)`: the `long long` that
`atoll` returns is converted to the unsigned 64-bit type. -/
def getValueUInt64 (atoll : Str → Int) (m : PropMap) (key : Str) (def_ : Nat) :
    Nat × PropMap :=
  if m.find key = none then (def_, m)
  else let r := m.subscript key; ((atoll r.1 % 2 ^ 64).toNat, r.2)

/-- The overload `double getValue(std::string key, double def)`; `D` stands for `double` and
`atof` is the C library function. -/
def getValueDouble {D : Type} (atof : Str → D) (m : PropMap) (key : Str) (def_ : D) :
    D × PropMap :=
  if m.find key = none then (def_, m)
  else let r := m.subscript key; (atof r.1, r.2)

/-! ## Descriptions used to state the properties of the loader -/

/-- The text `t` is `s` without its leading and trailing space, tab, CR and LF characters:
`s` is `a ++ t ++ b` with `a` and `b` made of those characters only, and `t` neither begins
nor ends with one of them. -/
def IsTrimOf (s t : Str) : Prop :=
  ∃ a b : Str, s = a ++ t ++ b ∧ (∀ c ∈ a, c ∈ delims) ∧ (∀ c ∈ b, c ∈ delims) ∧
    (∀ c, t.head? = some c → c ∉ delims) ∧ (∀ c, t.getLast? = some c → c ∉ delims)

/-- The successive values of `line` that the loop of `loadProperties` handles on a text, the
characters of the line being read given in `cur`: the text is cut at each newline; a text
ending in a newline (or empty) is followed by one empty line, and the last line of a text not
ending in a newline is handled twice (`loadProperties_eq_foldl` proves that this is what the
loop does). -/
def loopLinesAux (cur : Str) : Str → List Str
  | [] => if cur = [] then [[]] else [cur, cur]
  | c :: cs => if c = '\n' then cur :: loopLinesAux [] cs else loopLinesAux (cur ++ [c]) cs

/-- The successive values of `line` that the loop of `loadProperties` handles on a text. -/
def loopLines (text : Str) : List Str := loopLinesAux [] text

/-- The text of a line before its first `delimiter` (the whole line if there is none). -/
def keyText (line : Str) (delimiter : Char) : Str := line.takeWhile (fun c => c != delimiter)

/-- The text of a line after its first `delimiter` (empty if there is none). -/
def valueText (line : Str) (delimiter : Char) : Str :=
  (line.dropWhile (fun c => c != delimiter)).drop 1

/-- The lines of a text, the characters of the line being read given in `cur`: the text is
cut at each newline, and characters after the last newline form a last line. -/
def textLinesAux (cur : Str) : Str → List Str
  | [] => if cur = [] then [] else [cur]
  | c :: cs => if c = '\n' then cur :: textLinesAux [] cs else textLinesAux (cur ++ [c]) cs

/-- The lines of a text. -/
def textLines (text : Str) : List Str := textLinesAux [] text

/-- The characters of a text after its last newline, those of the line being read given in
`cur`. -/
def lastPartialAux (cur : Str) : Str → Str
  | [] => cur
  | c :: cs => if c = '\n' then lastPartialAux [] cs else lastPartialAux (cur ++ [c]) cs

/-- The characters of a text after its last newline: empty when the text is empty or ends
with a newline, otherwise the last line of the text. -/
def lastPartial (text : Str) : Str := lastPartialAux [] text

/-- The trimmed value a line gives to the key `k`: the line is not a comment, contains the
delimiter and its trimmed key is `k`; `none` for any other line. -/
def lineValue (delimiter : Char) (k : Str) (line : Str) : Option Str :=
  if line.head? ≠ some '#' ∧ delimiter ∈ line ∧ removeLTSpaces (keyText line delimiter) = k then
    some (removeLTSpaces (valueText line delimiter))
  else none

/-- The trimmed values that the lines of a list give to the key `k`, in line order. -/
def lineValues (delimiter : Char) (k : Str) (lines : List Str) : List Str :=
  lines.filterMap (lineValue delimiter k)

/-! ## `ClientManager` (chunk/ClientManager.cc) -/

/-- A `ClientSM *`: the address of a client session. -/
abbrev ClientSM := Nat

/-- The algorithm `std::find(first, last, value)` on a list: the position of the first
element equal to `value`; `none` is the end iterator. -/
def stdFind : List ClientSM → ClientSM → Option Nat
  | [], _ => none
  | x :: xs, value => if x = value then some 0 else (stdFind xs value).map (· + 1)

/-- The part of a `ClientManager` that `Remove` reads and writes: the list `mClients`. -/
structure ClientManager where
  mClients : List ClientSM
  deriving DecidableEq, Repr

/-- How a call of a `void` function ends: it returns, or `assert` aborts the process. -/
inductive Completion where
  | returned
  | assertFailed
  deriving DecidableEq, Repr

/-- What a call of `ClientManager::Remove` does: how it ends and the manager afterwards. -/
structure RemoveResult where
  outcome : Completion
  state : ClientManager
  deriving DecidableEq, Repr

/-- The method `void ClientManager::Remove(ClientSM *clnt)`; `ndebug` says whether assertions
are compiled out. -/
def ClientManager.Remove (ndebug : Bool) (self : ClientManager) (clnt : ClientSM) :
    RemoveResult :=
  let iter := stdFind self.mClients clnt
  match iter with
  | none =>
    -- assert(iter != mClients.end()); if (iter == mClients.end()) return;
    if ndebug then { outcome := .returned, state := self }
    else { outcome := .assertFailed, state := self }
  | some i =>
    -- mClients.erase(iter);
    { outcome := .returned, state := { self with mClients := self.mClients.eraseIdx i } }

/-! ## Keys (meta/base.h) -/

/-- Modelled from the spec: the enumeration `MetaType` is declared in `kfstypes.h`, which is
not among the sources.  The spec gives "a closed tag distinguishing: FileAttribute,
DirectoryEntry, ChunkInfo (plus an uninitialized sentinel)"; the enumerator names are those
used in `base.h` and `meta.h`. -/
inductive MetaType where
  | KFS_UNINIT
  | KFS_FATTR
  | KFS_DENTRY
  | KFS_CHUNKINFO
  deriving DecidableEq, Repr

/-- Modelled from the spec: the integer value of a `MetaType` enumerator (`kfstypes.h` is not
among the sources); the enumerators are numbered in the order of the spec's list, after the
uninitialized sentinel. -/
def MetaType.code : MetaType → Int
  | .KFS_UNINIT => 0
  | .KFS_FATTR => 1
  | .KFS_DENTRY => 2
  | .KFS_CHUNKINFO => 3

/-- The class `Key`: the kind of metadata and two `KeyData` (`long long`) fields. -/
structure Key where
  kind : MetaType
  kdata1 : Int
  kdata2 : Int
  deriving DecidableEq, Repr

namespace Key

/-- The constant `static const KeyData MATCH_ANY = -1`. -/
def MATCH_ANY : Int := -1

/-- The constructor `Key(MetaType k, KeyData d): kind(k), kdata1(d), kdata2(0)`. -/
def mk2 (k : MetaType) (d : Int) : Key := { kind := k, kdata1 := d, kdata2 := 0 }

/-- The constructor `Key(MetaType k, KeyData d1, KeyData d2)`. -/
def mk3 (k : MetaType) (d1 d2 : Int) : Key := { kind := k, kdata1 := d1, kdata2 := d2 }

/-- The constructor `Key(): kind(KFS_UNINIT), kdata1(0), kdata2(0)`. -/
def mk0 : Key := { kind := .KFS_UNINIT, kdata1 := 0, kdata2 := 0 }

/-- Modelled from the spec: `Key::compare` is declared in `base.h` and defined in a file that
is not among the sources.  The spec: "Two keys compare first by kind, then primary id, then
secondary id; a secondary-id wildcard value matches any secondary id during range queries."
The result is negative, zero or positive as `self` is before, equal to or after `test`. -/
def compare (self test : Key) : Int :=
  if self.kind ≠ test.kind then
    if self.kind.code < test.kind.code then -1 else 1
  else if self.kdata1 ≠ test.kdata1 then
    if self.kdata1 < test.kdata1 then -1 else 1
  else if self.kdata2 ≠ test.kdata2 ∧ self.kdata2 ≠ MATCH_ANY ∧ test.kdata2 ≠ MATCH_ANY then
    if self.kdata2 < test.kdata2 then -1 else 1
  else 0

/-- The operator `bool operator < (const Key &test) const { return compare(test) < 0; }`. -/
def opLt (self test : Key) : Bool := decide (self.compare test < 0)

/-- The operator `bool operator == (const Key &test) const { return compare(test) == 0; }`. -/
def opEq (self test : Key) : Bool := decide (self.compare test = 0)

/-- The operator `bool operator != (const Key &test) const { return compare(test) != 0; }`. -/
def opNe (self test : Key) : Bool := decide (self.compare test ≠ 0)

end Key

/-! ## Metadata nodes (meta/base.h) -/

/-- The bit pattern of an `int` (32 bits wide, two's complement), as a natural number below
`2 ^ 32`. -/
def toBits32 (x : Int) : Nat := (x % 4294967296).toNat

/-- The 32-bit `int` with a given bit pattern. -/
def ofBits32 (n : Nat) : Int := if n < 2147483648 then (n : Int) else (n : Int) - 4294967296

/-- The expression `a | b` on `int`s. -/
def intOr (a b : Int) : Int := ofBits32 (toBits32 a ||| toBits32 b)

/-- The expression `a & b` on `int`s. -/
def intAnd (a b : Int) : Int := ofBits32 (toBits32 a &&& toBits32 b)

/-- The expression `~a` on an `int`. -/
def intNot (a : Int) : Int := ofBits32 (4294967295 - toBits32 a)

/-- The flag `META_CPBIT`: CP parity bit. -/
def META_CPBIT : Int := 1

/-- The flag `META_NEW`: new since start of CP. -/
def META_NEW : Int := 2

/-- The flag `META_ROOT`: root node. -/
def META_ROOT : Int := 4

/-- The flag `META_LEVEL1`: children are leaves. -/
def META_LEVEL1 : Int := 8

/-- The flag `META_SKIP`: exclude from current CP. -/
def META_SKIP : Int := 16

/-- The class `MetaNode`: the data members `type` and `flagbits`. -/
structure MetaNode where
  type : MetaType
  flagbits : Int
  deriving DecidableEq, Repr

namespace MetaNode

/-- The constructor `MetaNode(MetaType t): type(t), flagbits(0)`. -/
def new (t : MetaType) : MetaNode := { type := t, flagbits := 0 }

/-- The constructor `MetaNode(MetaType t, int f): type(t), flagbits(f)`. -/
def newFlags (t : MetaType) (f : Int) : MetaNode := { type := t, flagbits := f }

/-- The method `int flags() const { return flagbits; }`. -/
def flags (self : MetaNode) : Int := self.flagbits

/-- The method `void setflag(int bit) { flagbits |= bit; }`. -/
def setflag (self : MetaNode) (bit : Int) : MetaNode :=
  { self with flagbits := intOr self.flagbits bit }

/-- The method `void clearflag(int bit) { flagbits &= ~bit; }`. -/
def clearflag (self : MetaNode) (bit : Int) : MetaNode :=
  { self with flagbits := intAnd self.flagbits (intNot bit) }

/-- The method `bool testflag(int bit) const { return (flagbits & bit) != 0; }`. -/
def testflag (self : MetaNode) (bit : Int) : Bool := intAnd self.flagbits bit != 0

end MetaNode

/-! ## Metadata objects (meta/meta.h) -/

/-- The class `Meta`: a `MetaNode` with the id `fid` of the owner of the item. -/
structure Meta where
  toMetaNode : MetaNode
  fid : Int
  deriving DecidableEq, Repr

namespace Meta

/-- The constructor `Meta(MetaType t, fid_t id): MetaNode(t), fid(id)`. -/
def new (t : MetaType) (id : Int) : Meta := { toMetaNode := MetaNode.new t, fid := id }

/-- The method `fid_t id() const { return fid; }`. -/
def id (self : Meta) : Int := self.fid

/-- The method `bool skip() const { return testflag(META_SKIP); }`. -/
def skip (self : Meta) : Bool := self.toMetaNode.testflag META_SKIP

/-- The method `void markskip() { setflag(META_SKIP); }`. -/
def markskip (self : Meta) : Meta :=
  { self with toMetaNode := self.toMetaNode.setflag META_SKIP }

/-- The method `void clearskip() { clearflag(META_SKIP); }`. -/
def clearskip (self : Meta) : Meta :=
  { self with toMetaNode := self.toMetaNode.clearflag META_SKIP }

end Meta

/-- The class `MetaDentry`: a `Meta` with the id `dir` of the parent directory and the
`name` of the entry. -/
structure MetaDentry where
  toMeta : Meta
  dir : Int
  name : Str
  deriving DecidableEq, Repr

namespace MetaDentry

/-- The constructor `MetaDentry(fid_t parent, string fname, fid_t myID):
Meta(KFS_DENTRY, myID), dir(parent), name(fname)`. -/
def new (parent : Int) (fname : Str) (myID : Int) : MetaDentry :=
  { toMeta := Meta.new .KFS_DENTRY myID, dir := parent, name := fname }

/-- The method `const Key key() const { return Key(KFS_DENTRY, dir); }`. -/
def key (self : MetaDentry) : Key := Key.mk2 .KFS_DENTRY self.dir

/-- The method `const string getName() const { return name; }`. -/
def getName (self : MetaDentry) : Str := self.name

end MetaDentry

/-- Modelled from the spec: the enumeration `FileType` is declared in `kfstypes.h`, which is
not among the sources; the spec gives the "type tag (file|directory)", and `meta.h` uses
`KFS_NONE` for an attribute without a type. -/
inductive FileType where
  | KFS_NONE
  | KFS_FILE
  | KFS_DIR
  deriving DecidableEq, Repr

/-- The C structure `struct timeval`. -/
structure timeval where
  tv_sec : Int
  tv_usec : Int
  deriving DecidableEq, Repr

/-- The class `MetaFattr`: a `Meta` with the attributes of a file or directory. -/
structure MetaFattr where
  toMeta : Meta
  type : FileType
  mtime : timeval
  ctime : timeval
  crtime : timeval
  chunkcount : Int
  numReplicas : Int
  deriving DecidableEq, Repr

namespace MetaFattr

/-- The constructor `MetaFattr(FileType t, fid_t id, int16_t n)`; `now` is the time that
`gettimeofday` stores in `crtime`. -/
def new (t : FileType) (id : Int) (n : Int) (now : timeval) : MetaFattr :=
  { toMeta := Meta.new .KFS_FATTR id, type := t, mtime := now, ctime := now, crtime := now,
    chunkcount := 0, numReplicas := n }

/-- The constructor `MetaFattr(FileType t, fid_t id, struct timeval mt, struct timeval ct,
struct timeval crt, long long c, int16_t n)`. -/
def newFull (t : FileType) (id : Int) (mt ct crt : timeval) (c : Int) (n : Int) : MetaFattr :=
  { toMeta := Meta.new .KFS_FATTR id, type := t, mtime := mt, ctime := ct, crtime := crt,
    chunkcount := c, numReplicas := n }

/-- The method `const Key key() const { return Key(KFS_FATTR, id()); }`. -/
def key (self : MetaFattr) : Key := Key.mk2 .KFS_FATTR self.toMeta.id

end MetaFattr

/-- The class `MetaChunkInfo`: a `Meta` owned by a file, with the offset of the chunk in the
file, the chunk id and the chunk version. -/
structure MetaChunkInfo where
  toMeta : Meta
  offset : Int
  chunkId : Int
  chunkVersion : Int
  deriving DecidableEq, Repr

namespace MetaChunkInfo

/-- The constructor `MetaChunkInfo(fid_t file, chunkOff_t off, chunkId_t id, seq_t v):
Meta(KFS_CHUNKINFO, file), offset(off), chunkId(id), chunkVersion(v)`. -/
def new (file off id v : Int) : MetaChunkInfo :=
  { toMeta := Meta.new .KFS_CHUNKINFO file, offset := off, chunkId := id, chunkVersion := v }

/-- The method `const Key key() const { return Key(KFS_CHUNKINFO, id(), offset); }`. -/
def key (self : MetaChunkInfo) : Key := Key.mk3 .KFS_CHUNKINFO self.toMeta.id self.offset

end MetaChunkInfo

/-- An object of one of the three classes derived from `Meta`, as reached through a
`Meta *`. -/
inductive Entity where
  | fattr (a : MetaFattr)
  | dentry (d : MetaDentry)
  | chunkinfo (c : MetaChunkInfo)
  deriving DecidableEq, Repr

namespace Entity

/-- The `Meta` base object of an entity. -/
def toMeta : Entity → Meta
  | fattr a => a.toMeta
  | dentry d => d.toMeta
  | chunkinfo c => c.toMeta

/-- The virtual method `key()`. -/
def key : Entity → Key
  | fattr a => a.key
  | dentry d => d.key
  | chunkinfo c => c.key

/-- The inherited method `markskip()` called on an entity. -/
def markskip : Entity → Entity
  | fattr a => fattr { a with toMeta := a.toMeta.markskip }
  | dentry d => dentry { d with toMeta := d.toMeta.markskip }
  | chunkinfo c => chunkinfo { c with toMeta := c.toMeta.markskip }

end Entity

/-- What two entities with equal keys have in common: they are of the same variant; two file
attributes have the same owner id, two chunk records the same owning file and offset, and two
directory entries the same parent directory. -/
def KeyMates : Entity → Entity → Prop
  | .fattr a, .fattr b => a.toMeta.id = b.toMeta.id
  | .dentry a, .dentry b => a.dir = b.dir
  | .chunkinfo a, .chunkinfo b => a.toMeta.id = b.toMeta.id ∧ a.offset = b.offset
  | _, _ => False

/-- The reading of "the same logical entity" for two entities: the same variant with the
same owner id and, for directory entries, the same parent and entry name. -/
def SameLogicalEntity : Entity → Entity → Prop
  | .fattr a, .fattr b => a.toMeta.id = b.toMeta.id
  | .dentry a, .dentry b => a.toMeta.id = b.toMeta.id ∧ a.dir = b.dir ∧ a.name = b.name
  | .chunkinfo a, .chunkinfo b => a.toMeta.id = b.toMeta.id
  | _, _ => False

/-! ## Checkpointing an entity (meta/meta.h) -/

/-- An output file stream (`std::ofstream`): the characters the file has accepted, the
number of characters it will still accept before a write fails (`none`: no limit), the state
bit `eofbit`, and whether the stream is in a failed state (`fail()`, that is `failbit` or
`badbit`). -/
structure OFStream where
  written : Str
  room : Option Nat
  eofbit : Bool
  failed : Bool
  deriving DecidableEq, Repr

/-- The member `good()`: no state bit is set. -/
def OFStream.good (file : OFStream) : Bool := !file.eofbit && !file.failed

/-- The insertion `file << s` of a string or a character.  On a stream that is not `good()`
the sentry fails: nothing is written and `eofbit` and `fail()` are as before.  Otherwise the
characters are written as long as the file accepts them, and a write that is cut short
leaves the stream in a failed state. -/
def OFStream.insert (file : OFStream) (s : Str) : OFStream :=
  if file.good then
    match file.room with
    | none => { file with written := file.written ++ s }
    | some r =>
      if s.length ≤ r then
        { file with written := file.written ++ s, room := some (r - s.length) }
      else
        { file with written := file.written ++ s.take r, room := some 0, failed := true }
  else file

/-- What a call of `Meta::checkpoint` leaves: the returned value, the stream and the
entity. -/
structure CheckpointResult where
  ret : Int
  file : OFStream
  self : Entity
  deriving DecidableEq, Repr

/-- The method `int Meta::checkpoint(ofstream &file) const`:
`file << show() << '\n'; return file.fail() ? -EIO : 0;`.  The virtual method `show()` of the
entity is defined in a file that is not among the sources and `EIO` comes from `<errno.h>`;
both are parameters. -/
def Meta.checkpoint (show_ : Entity → Str) ( EIO : Int) (self : Entity) (file : OFStream) :
    CheckpointResult :=
  let file1 := (file.insert (show_ self)).insert ['\n']
  { ret := if file1.failed then - EIO else 0, file := file1, self := self }

/-- What a run of the Checkpoint Writer leaves: the status (0, or the error of the write that
failed), the number of lines written, the stream and the entities. -/
structure WriterResult where
  status : Int
  lines : Nat
  file : OFStream
  entities : List Entity
  deriving DecidableEq, Repr

/-- Modelled from the spec: the Checkpoint Writer, the pass over the entities of the store
that uses `skip()` and `checkpoint()`, is not among the sources.  The spec: it "writes every
entity not marked excluded to an append-only text stream, one entity per line using each
entity's canonical textual rendering, in Key order, and returns a count of lines written or
fails with an I/O error".  The entities are given in Key order; an entity whose `skip()` is
true is passed over, every other one is written with `Meta::checkpoint`, and the first write
that fails ends the run with its error. -/
def checkpointWriter (show_ : Entity → Str) ( EIO : Int) : OFStream → List Entity → WriterResult
  | file, [] => { status := 0, lines := 0, file := file, entities := [] }
  | file, e :: es =>
    if e.toMeta.skip then
      let r := checkpointWriter show_ EIO file es
      { r with entities := e :: r.entities }
    else
      let c := Meta.checkpoint show_ EIO e file
      if c.ret ≠ 0 then
        { status := c.ret, lines := 0, file := c.file, entities := c.self :: es }
      else
        let r := checkpointWriter show_ EIO c.file es
        { status := r.status, lines := r.lines + 1, file := r.file,
          entities := c.self :: r.entities }

/-! ## Loading a properties file (properties.cc) -/

/-- What a call of `loadProperties(const char* fileName, ...)` leaves: the returned value,
the map, and the texts written to `std::cout` and to `std::cerr`. -/
structure LoadFileResult where
  ret : Int
  propmap : PropMap
  out : Str
  err : Str
  deriving DecidableEq, Repr

/-- The method `Properties::loadProperties(const char* fileName, char delimiter,
bool verbose, bool multiline)` on the map `m`.  The file system is the parameter `openFile`:
the contents of the file of a given name, or `none` when `std::ifstream` cannot open it. -/
def loadPropertiesFile (openFile : Str → Option Str) (m : PropMap) (fileName : Str)
    (delimiter : Char) (verbose multiline : Bool) : Option LoadFileResult :=
  match openFile fileName with
  | none =>
    -- if(!input.is_open()) { std::cerr << ... << fileName << std::endl; return(-1); }
    some { ret := -1, propmap := m, out := [],
           err := "Properties::loadProperties() Could not open the file:".toList ++ fileName
             ++ ['\n'] }
  | some text =>
    -- loadProperties(input, delimiter, verbose, multiline); input.close(); return 0;
    (loadProperties m (IStream.ofText text) delimiter verbose multiline).map
      fun r => { ret := 0, propmap := r.propmap, out := r.out, err := [] }

/-! ## The reference trim -/

/-- The test for the four characters that are trimmed: space, tab, CR and LF. -/
def isTrimChar (c : Char) : Bool := c = ' ' || c = '\t' || c = '\r' || c = '\n'

/-- The reference trim, after the spec's words "leading/trailing whitespace trimmed": the
leading characters that are space, tab, CR or LF are dropped, then the trailing ones. -/
def referenceTrim (s : Str) : Str :=
  ((s.dropWhile isTrimChar).reverse.dropWhile isTrimChar).reverse

/-! ## Descriptions used to state the properties of the monitor and of the flags -/

/-- The event sequence of `n` rounds of the monitor, each a timer firing followed by the
completion of the check it started. -/
def ChunkReplicator.checkRounds (ec : EventCodes) : Nat → List (Int × Nat)
  | 0 => []
  | n + 1 => (ec.EVENT_TIMEOUT, 0) :: (ec.EVENT_CMD_DONE, 0) :: checkRounds ec n

/-- The five flag constants of `base.h`. -/
def flagConstants : List Int := [META_CPBIT, META_NEW, META_ROOT, META_LEVEL1, META_SKIP]

open ChunkReplicator

/-! ## Theorems: `UniqueID` -/

theorem wrapInt64_of_inRange (x : Int) (hlo : INT64_MIN ≤ x) (hhi : x ≤ INT64_MAX) :
    wrapInt64 x = x := by
  unfold wrapInt64
  unfold INT64_MIN at hlo
  unfold INT64_MAX at hhi
  have h : (x + 2 ^ 63) % 2 ^ 64 = x + 2 ^ 63 := by
    apply Int.emod_eq_of_lt <;> omega
  omega

theorem UniqueID.genidN_seed (k : Nat) (u : UniqueID) :
    (u.genidN k).2.seed = ((u.genidN k).1.getLast?).getD u.seed := by
  induction k generalizing u with
  | zero => rfl
  | succ k ih =>
    simp only [genidN]
    rw [ih]
    cases h : (genidN k u.genid.2).1 with
    | nil => simp [genid]
    | cons a l => simp [List.getLast?_cons_cons, List.getLast?_eq_getLast]

theorem UniqueID.genidN_ids (k : Nat) (u : UniqueID) (hlo : INT64_MIN ≤ u.seed)
    (hhi : u.seed + k ≤ INT64_MAX) :
    (u.genidN k).1 = (List.range k).map (fun i : Nat => u.seed + 1 + (i : Int)) := by
  induction k generalizing u with
  | zero => rfl
  | succ k ih =>
    have hw : wrapInt64 (u.seed + 1) = u.seed + 1 := by
      apply wrapInt64_of_inRange <;> omega
    have hs : u.genid.2.seed = u.seed + 1 := by simp [genid, hw]
    have h1 : u.genid.1 = u.seed + 1 := by simp [genid, hw]
    simp only [genidN]
    rw [ih u.genid.2 (by rw [hs]; omega) (by rw [hs]; push_cast at hhi; omega), h1, hs,
      List.range_succ_eq_map]
    simp only [List.map_cons, List.map_map]
    congr 1
    · simp
    · apply List.map_congr_left
      intro i _
      simp only [Function.comp, Nat.succ_eq_add_one]
      push_cast
      ring

theorem UniqueID.genidN_final_seed (k : Nat) (u : UniqueID) (hlo : INT64_MIN ≤ u.seed)
    (hhi : u.seed + k ≤ INT64_MAX) : (u.genidN k).2.seed = u.seed + k := by
  induction k generalizing u with
  | zero => simp [genidN]
  | succ k ih =>
    have hw : wrapInt64 (u.seed + 1) = u.seed + 1 := by
      apply wrapInt64_of_inRange <;> omega
    have hs : u.genid.2.seed = u.seed + 1 := by simp [genid, hw]
    simp only [genidN]
    rw [ih u.genid.2 (by rw [hs]; omega) (by rw [hs]; push_cast at hhi; omega), hs]
    push_cast
    ring

/-- C1: for a generator with seed `s` in the 64-bit range and `n` such that `s + n` does not
overflow, `n` successive `genid()` calls return `s+1, s+2, ..., s+n` in that order; the
returned values are strictly increasing and pairwise distinct. -/
theorem UniqueID.genid_successive (u : UniqueID) (n : Nat) (hlo : INT64_MIN ≤ u.seed)
    (hhi : u.seed + n ≤ INT64_MAX) :
    (u.genidN n).1 = (List.range n).map (fun i : Nat => u.seed + 1 + (i : Int)) ∧
    (u.genidN n).1.Pairwise (· < ·) ∧ (u.genidN n).1.Nodup := by
  have hids := UniqueID.genidN_ids n u hlo hhi
  have hpw : (u.genidN n).1.Pairwise (· < ·) := by
    rw [hids, List.pairwise_map]
    refine (List.pairwise_lt_range n).imp ?_
    intro a b hab
    have : (a : Int) < (b : Int) := by exact_mod_cast hab
    omega
  exact ⟨hids, hpw, hpw.imp (fun h => ne_of_lt h)⟩

/-- Witness of C1: the generator `UniqueID(0, 5)` and four calls, which return 6, 7, 8, 9. -/
theorem UniqueID.genid_successive_witness :
    ((UniqueID.mk2 0 5).genidN 4).1 = [6, 7, 8, 9] ∧
    ((UniqueID.mk2 0 5).genidN 4).1.Pairwise (· < ·) ∧ ((UniqueID.mk2 0 5).genidN 4).1.Nodup :=
  UniqueID.genid_successive (UniqueID.mk2 0 5) 4 (by decide) (by decide)

/-- C2: after any number of `genid()` calls `getseed()` is the last id issued (the initial
seed if none was issued); and a generator on which `setseed(g.getseed())` is then called
issues, as long as the 64-bit range is not exceeded, only ids strictly greater than every id
`g` issued before the save. -/
theorem UniqueID.seed_restore_never_reuses (g h : UniqueID) (n m : Nat)
    (hlo : INT64_MIN ≤ g.seed) (hhi : g.seed + n + m ≤ INT64_MAX) :
    (g.genidN n).2.getseed = ((g.genidN n).1.getLast?).getD g.seed ∧
    ∀ x ∈ (g.genidN n).1,
      ∀ y ∈ ((h.setseed (g.genidN n).2.getseed).genidN m).1, x < y := by
  refine ⟨UniqueID.genidN_seed n g, ?_⟩
  have hn : g.seed + n ≤ INT64_MAX := by omega
  have hseed : (g.genidN n).2.getseed = g.seed + n := UniqueID.genidN_final_seed n g hlo hn
  have hs2 : (h.setseed (g.seed + n)).seed = g.seed + n := rfl
  intro x hx y hy
  rw [UniqueID.genidN_ids n g hlo hn] at hx
  rw [hseed, UniqueID.genidN_ids m _ (by rw [hs2]; omega) (by rw [hs2]; omega), hs2] at hy
  simp only [List.mem_map, List.mem_range] at hx hy
  obtain ⟨i, hi, rfl⟩ := hx
  obtain ⟨j, _, rfl⟩ := hy
  omega

/-- Witness of C2: `UniqueID(0, 5)` issues 6, 7, 8; a default-constructed generator restored
from its seed then issues 9 and 10. -/
theorem UniqueID.seed_restore_never_reuses_witness :
    ((UniqueID.mk2 0 5).genidN 3).2.getseed
        = (((UniqueID.mk2 0 5).genidN 3).1.getLast?).getD (UniqueID.mk2 0 5).seed ∧
    ∀ x ∈ ((UniqueID.mk2 0 5).genidN 3).1,
      ∀ y ∈ ((UniqueID.mk0.setseed ((UniqueID.mk2 0 5).genidN 3).2.getseed).genidN 2).1, x < y :=
  UniqueID.seed_restore_never_reuses (UniqueID.mk2 0 5) UniqueID.mk0 3 2 (by decide) (by decide)


theorem ChunkReplicator.HandleEvent_cmd_done (ec : EventCodes) (ndebug : Bool)
    (s : ChunkReplicator) (data : Nat) :
    HandleEvent ec ndebug s ec.EVENT_CMD_DONE data =
      { outcome := .returned 0, state := { s with mInProgress := false }, submitted := [] } := by
  simp [HandleEvent]

theorem ChunkReplicator.HandleEvent_timeout_busy (ec : EventCodes) (ndebug : Bool)
    (s : ChunkReplicator) (data : Nat) (h : s.mInProgress = true) :
    HandleEvent ec ndebug s ec.EVENT_TIMEOUT data =
      { outcome := .returned 0, state := s, submitted := [] } := by
  simp [HandleEvent, h, ec.distinct.symm]

theorem ChunkReplicator.HandleEvent_timeout_idle (ec : EventCodes) (ndebug : Bool)
    (s : ChunkReplicator) (data : Nat) (h : s.mInProgress = false) :
    HandleEvent ec ndebug s ec.EVENT_TIMEOUT data =
      { outcome := .returned 0,
        state := { mInProgress := true, mOp := { opSeqno := s.seqNum },
                   seqNum := wrapInt64 (s.seqNum + 1) },
        submitted := [{ opSeqno := s.seqNum }] } := by
  simp [HandleEvent, h, ec.distinct.symm]

/-- A call that submits comes from a timeout in the idle state and leaves the monitor busy. -/
theorem ChunkReplicator.submitted_ne_nil (ec : EventCodes) (ndebug : Bool)
    (s : ChunkReplicator) (e : Int × Nat)
    (h : (HandleEvent ec ndebug s e.1 e.2).submitted ≠ []) :
    e.1 = ec.EVENT_TIMEOUT ∧ s.mInProgress = false ∧
    (HandleEvent ec ndebug s e.1 e.2).outcome = .returned 0 ∧
    (HandleEvent ec ndebug s e.1 e.2).state.mInProgress = true := by
  unfold HandleEvent at h ⊢
  by_cases h1 : e.1 = ec.EVENT_CMD_DONE
  · simp [h1] at h
  · by_cases h2 : e.1 = ec.EVENT_TIMEOUT
    · cases hp : s.mInProgress
      · simp [h1, h2, hp, ec.distinct.symm]
      · simp [h1, h2, hp, ec.distinct.symm] at h
    · cases ndebug <;> simp [h1, h2] at h

theorem ChunkReplicator.runState_append (ec : EventCodes) (ndebug : Bool)
    (s : ChunkReplicator) (a b : List (Int × Nat)) :
    runState ec ndebug s (a ++ b) = (runState ec ndebug s a).bind (fun t => runState ec ndebug t b) := by
  induction a generalizing s with
  | nil => simp [runState]
  | cons e a ih =>
    simp only [List.cons_append, runState]
    cases (HandleEvent ec ndebug s e.1 e.2).outcome with
    | returned v => simp [ih]
    | assertFailed => simp

/-- While no completion arrives, a busy monitor stays busy. -/
theorem ChunkReplicator.runState_busy (ec : EventCodes) (ndebug : Bool)
    (s t : ChunkReplicator) (es : List (Int × Nat)) (hs : s.mInProgress = true)
    (hes : ∀ d ∈ es, d.1 ≠ ec.EVENT_CMD_DONE) (hrun : runState ec ndebug s es = some t) :
    t.mInProgress = true := by
  induction es generalizing s with
  | nil => simp [runState] at hrun; rw [← hrun]; exact hs
  | cons e es ih =>
    have he : e.1 ≠ ec.EVENT_CMD_DONE := hes e (List.mem_cons_self _ _)
    have hes1 : ∀ d ∈ es, d.1 ≠ ec.EVENT_CMD_DONE := fun d hd => hes d (List.mem_cons_of_mem _ hd)
    simp only [runState] at hrun
    by_cases h2 : e.1 = ec.EVENT_TIMEOUT
    · rw [h2, HandleEvent_timeout_busy ec ndebug s e.2 hs] at hrun
      exact ih s hs hes1 hrun
    · cases ndebug
      · simp [HandleEvent, he, h2] at hrun
      · simp only [HandleEvent, he, h2, if_false, if_true] at hrun
        exact ih s hs hes1 hrun

/-- A busy monitor submits nothing while only timers fire. -/
theorem ChunkReplicator.runSubmitted_busy_timeouts (ec : EventCodes) (ndebug : Bool)
    (s : ChunkReplicator) (ds : List Nat) (hs : s.mInProgress = true) :
    runSubmitted ec ndebug s (ds.map fun d => (ec.EVENT_TIMEOUT, d)) = [] := by
  induction ds with
  | nil => rfl
  | cons d ds ih =>
    simp only [List.map_cons, runSubmitted]
    rw [HandleEvent_timeout_busy ec ndebug s d hs]
    simpa using ih

/-- One call of `HandleEvent` calls `submit_request` at most once: it submits nothing, or,
for a timeout in the idle state, exactly the one request numbered with the counter. -/
theorem ChunkReplicator.submitted_cases (ec : EventCodes) (ndebug : Bool)
    (s : ChunkReplicator) (e : Int × Nat) :
    ((HandleEvent ec ndebug s e.1 e.2).submitted = [] ∧
      ¬ (e.1 = ec.EVENT_TIMEOUT ∧ s.mInProgress = false)) ∨
    ((HandleEvent ec ndebug s e.1 e.2).submitted = [{ opSeqno := s.seqNum }] ∧
      e.1 = ec.EVENT_TIMEOUT ∧ s.mInProgress = false) := by
  by_cases h1 : e.1 = ec.EVENT_CMD_DONE
  · left
    rw [h1, HandleEvent_cmd_done]
    exact ⟨rfl, fun h => ec.distinct h.1⟩
  · by_cases h2 : e.1 = ec.EVENT_TIMEOUT
    · cases hp : s.mInProgress with
      | true =>
        left
        rw [h2, HandleEvent_timeout_busy ec ndebug s e.2 hp]
        exact ⟨rfl, fun h => Bool.noConfusion h.2⟩
      | false =>
        right
        rw [h2, HandleEvent_timeout_idle ec ndebug s e.2 hp]
        exact ⟨rfl, rfl, rfl⟩
    · left
      refine ⟨?_, fun h => h2 h.1⟩
      cases ndebug <;> simp [HandleEvent, h1, h2]

/-- Over any run the requests submitted are at most the completions in it, plus one if the
monitor was idle at the start. -/
theorem ChunkReplicator.runSubmitted_length_le (ec : EventCodes) (ndebug : Bool)
    (es : List (Int × Nat)) (s : ChunkReplicator) :
    (runSubmitted ec ndebug s es).length
      ≤ (es.filter fun e => decide (e.1 = ec.EVENT_CMD_DONE)).length
        + (if s.mInProgress then 0 else 1) := by
  induction es generalizing s with
  | nil => simp [runSubmitted]
  | cons e es ih =>
    simp only [runSubmitted]
    by_cases h1 : e.1 = ec.EVENT_CMD_DONE
    · rw [h1, HandleEvent_cmd_done]
      have := ih { s with mInProgress := false }
      simp only [List.filter_cons, h1, decide_True, if_true, List.length_cons,
        List.nil_append] at this ⊢
      split_ifs <;> simp at this ⊢ <;> omega
    · have hf : (List.filter (fun e => decide (e.1 = ec.EVENT_CMD_DONE)) (e :: es))
          = List.filter (fun e => decide (e.1 = ec.EVENT_CMD_DONE)) es := by
        simp [List.filter_cons, h1]
      rw [hf]
      by_cases h2 : e.1 = ec.EVENT_TIMEOUT
      · cases hp : s.mInProgress with
        | true =>
          rw [h2, HandleEvent_timeout_busy ec ndebug s e.2 hp]
          have := ih s
          simp only [hp, if_true, List.nil_append] at this ⊢
          exact this
        | false =>
          rw [h2, HandleEvent_timeout_idle ec ndebug s e.2 hp]
          have := ih ⟨true, ⟨s.seqNum⟩, wrapInt64 (s.seqNum + 1)⟩
          simp only [if_true, List.singleton_append, List.length_cons] at this ⊢
          simp
          omega
      · cases ndebug with
        | true =>
          have hu : HandleEvent ec true s e.1 e.2
              = { outcome := .returned 0, state := s, submitted := [] } := by
            simp [HandleEvent, h1, h2]
          rw [hu]
          simpa using ih s
        | false =>
          have hu : HandleEvent ec false s e.1 e.2
              = { outcome := .assertFailed, state := s, submitted := [] } := by
            simp [HandleEvent, h1, h2]
          rw [hu]
          simp

/-- One or more timer firings in a row on an idle monitor submit exactly one request. -/
theorem ChunkReplicator.runSubmitted_idle_timeouts (ec : EventCodes) (ndebug : Bool)
    (s : ChunkReplicator) (d : Nat) (ds : List Nat) (hs : s.mInProgress = false) :
    runSubmitted ec ndebug s ((d :: ds).map fun x => (ec.EVENT_TIMEOUT, x))
      = [{ opSeqno := s.seqNum }] := by
  simp only [List.map_cons, runSubmitted]
  rw [HandleEvent_timeout_idle ec ndebug s d hs]
  simp only
  rw [runSubmitted_busy_timeouts ec ndebug _ ds rfl]
  rfl

/-- C3: starting from a freshly constructed `ChunkReplicator`, whatever events are fed to
`HandleEvent`: every call of `HandleEvent` calls `submit_request` at most once, and only if
its event is a timeout that arrives while `mInProgress` is false, in which case it submits
exactly one request; between two calls that submit there is at least one `EVENT_CMD_DONE`,
so the requests submitted over a run are at most one more than the completions in it; and one
or more consecutive timer firings, on the fresh monitor or on any idle one, submit exactly one
request (and none on a monitor with a check in progress). -/
theorem ChunkReplicator.never_two_outstanding (ec : EventCodes) (ndebug : Bool) (q : Int) :
    (∀ (pre : List (Int × Nat)) (e : Int × Nat) (t : ChunkReplicator),
      runState ec ndebug (ChunkReplicator.new q) pre = some t →
      (HandleEvent ec ndebug t e.1 e.2).submitted ≠ [] →
      e.1 = ec.EVENT_TIMEOUT ∧ t.mInProgress = false) ∧
    (∀ (pre mid : List (Int × Nat)) (e1 e2 : Int × Nat) (t1 t2 : ChunkReplicator),
      runState ec ndebug (ChunkReplicator.new q) pre = some t1 →
      (HandleEvent ec ndebug t1 e1.1 e1.2).submitted ≠ [] →
      runState ec ndebug (ChunkReplicator.new q) (pre ++ e1 :: mid) = some t2 →
      (HandleEvent ec ndebug t2 e2.1 e2.2).submitted ≠ [] →
      ∃ d ∈ mid, d.1 = ec.EVENT_CMD_DONE) ∧
    (∀ (d : Nat) (ds : List Nat),
      runSubmitted ec ndebug (ChunkReplicator.new q)
        ((d :: ds).map fun x => (ec.EVENT_TIMEOUT, x)) = [{ opSeqno := q }]) ∧
    (∀ (t : ChunkReplicator) (e : Int × Nat),
      ((HandleEvent ec ndebug t e.1 e.2).submitted = [] ∧
        ¬ (e.1 = ec.EVENT_TIMEOUT ∧ t.mInProgress = false)) ∨
      ((HandleEvent ec ndebug t e.1 e.2).submitted = [{ opSeqno := t.seqNum }] ∧
        e.1 = ec.EVENT_TIMEOUT ∧ t.mInProgress = false)) ∧
    (∀ (t : ChunkReplicator) (e : Int × Nat),
      (HandleEvent ec ndebug t e.1 e.2).submitted.length ≤ 1) ∧
    (∀ es : List (Int × Nat),
      (runSubmitted ec ndebug (ChunkReplicator.new q) es).length
        ≤ (es.filter fun e => decide (e.1 = ec.EVENT_CMD_DONE)).length + 1) ∧
    (∀ (t : ChunkReplicator) (d : Nat) (ds : List Nat),
      (t.mInProgress = false →
        runSubmitted ec ndebug t ((d :: ds).map fun x => (ec.EVENT_TIMEOUT, x))
          = [{ opSeqno := t.seqNum }]) ∧
      (t.mInProgress = true →
        runSubmitted ec ndebug t ((d :: ds).map fun x => (ec.EVENT_TIMEOUT, x)) = [])) := by
  refine ⟨?_, ?_, ?_, submitted_cases ec ndebug, ?_, ?_, ?_⟩
  · intro pre e t _ hsub
    have h := submitted_ne_nil ec ndebug t e hsub
    exact ⟨h.1, h.2.1⟩
  · intro pre mid e1 e2 t1 t2 hpre h1 hrun h2
    by_contra hno
    have hmid : ∀ d ∈ mid, d.1 ≠ ec.EVENT_CMD_DONE := fun d hd hc => hno ⟨d, hd, hc⟩
    obtain ⟨_, _, hout, hbusy⟩ := submitted_ne_nil ec ndebug t1 e1 h1
    rw [runState_append, hpre] at hrun
    simp only [Option.some_bind, runState, hout] at hrun
    have hb := runState_busy ec ndebug _ t2 mid hbusy hmid hrun
    have hidle := (submitted_ne_nil ec ndebug t2 e2 h2).2.1
    rw [hb] at hidle
    exact Bool.noConfusion hidle
  · intro d ds
    exact runSubmitted_idle_timeouts ec ndebug (ChunkReplicator.new q) d ds rfl
  · intro t e
    rcases submitted_cases ec ndebug t e with h | h
    · rw [h.1]
      simp
    · rw [h.1]
      simp
  · intro es
    have h := runSubmitted_length_le ec ndebug es (ChunkReplicator.new q)
    simpa [ChunkReplicator.new] using h
  · intro t d ds
    exact ⟨runSubmitted_idle_timeouts ec ndebug t d ds,
      runSubmitted_busy_timeouts ec ndebug t (d :: ds)⟩

/-- Witness of C3: on a fresh monitor with the counter at 5, a timer firing, a completion and
two more timer firings submit the requests 5 and 6 and nothing else. -/
theorem ChunkReplicator.never_two_outstanding_witness :
    runSubmitted EventCodes.sample false (ChunkReplicator.new 5)
        [(9, 0), (8, 0), (9, 0), (9, 0)] = [{ opSeqno := 5 }, { opSeqno := 6 }] ∧
    (runSubmitted EventCodes.sample false (ChunkReplicator.new 5)
        [(9, 0), (8, 0), (9, 0), (9, 0)]).length
      ≤ ([(9, 0), (8, 0), (9, 0), (9, 0)].filter
          fun e : Int × Nat => decide (e.1 = EventCodes.sample.EVENT_CMD_DONE)).length + 1 :=
  ⟨by decide,
   (ChunkReplicator.never_two_outstanding EventCodes.sample false 5).2.2.2.2.2.1
     [(9, 0), (8, 0), (9, 0), (9, 0)]⟩


/-- Counterexample to C4 as stated: with the sequence counter at the largest 64-bit value the
timer in the idle state still submits the request numbered `q`, but the counter afterwards is
not `q + 1`: the increment leaves the 64-bit range and the counter holds `INT64_MIN`. -/
theorem ChunkReplicator.timeout_idle_counter_at_max :
    (HandleEvent EventCodes.sample false
        { mInProgress := false, mOp := { opSeqno := 1 }, seqNum := INT64_MAX }
        EventCodes.sample.EVENT_TIMEOUT 0).submitted = [{ opSeqno := INT64_MAX }] ∧
    (HandleEvent EventCodes.sample false
        { mInProgress := false, mOp := { opSeqno := 1 }, seqNum := INT64_MAX }
        EventCodes.sample.EVENT_TIMEOUT 0).state.seqNum = INT64_MIN ∧
    (HandleEvent EventCodes.sample false
        { mInProgress := false, mOp := { opSeqno := 1 }, seqNum := INT64_MAX }
        EventCodes.sample.EVENT_TIMEOUT 0).state.seqNum ≠ INT64_MAX + 1 := by
  decide

/-- C4 (amended): in a state with `mInProgress = false` and sequence counter `q` below the
largest 64-bit value, `HandleEvent(EVENT_TIMEOUT)` submits exactly one request, the
monitor's own op with `opSeqno = q`; afterwards `mInProgress = true` and the counter is
`q + 1`; the call returns 0. -/
theorem ChunkReplicator.timeout_idle_submits (ec : EventCodes) (ndebug : Bool)
    (s : ChunkReplicator) (data : Nat) (hidle : s.mInProgress = false)
    (hlo : INT64_MIN ≤ s.seqNum) (hhi : s.seqNum < INT64_MAX) :
    (HandleEvent ec ndebug s ec.EVENT_TIMEOUT data).submitted
      = [(HandleEvent ec ndebug s ec.EVENT_TIMEOUT data).state.mOp] ∧
    (HandleEvent ec ndebug s ec.EVENT_TIMEOUT data).state.mOp.opSeqno = s.seqNum ∧
    (HandleEvent ec ndebug s ec.EVENT_TIMEOUT data).state.mInProgress = true ∧
    (HandleEvent ec ndebug s ec.EVENT_TIMEOUT data).state.seqNum = s.seqNum + 1 ∧
    (HandleEvent ec ndebug s ec.EVENT_TIMEOUT data).outcome = .returned 0 := by
  rw [HandleEvent_timeout_idle ec ndebug s data hidle]
  refine ⟨rfl, rfl, rfl, ?_, rfl⟩
  exact wrapInt64_of_inRange _ (by omega) (by omega)

/-- Witness of C4 (amended): a fresh monitor with the counter at 1 and a timer event. -/
theorem ChunkReplicator.timeout_idle_submits_witness :
    (HandleEvent EventCodes.sample false (ChunkReplicator.new 1) 9 0).submitted
      = [(HandleEvent EventCodes.sample false (ChunkReplicator.new 1) 9 0).state.mOp] ∧
    (HandleEvent EventCodes.sample false (ChunkReplicator.new 1) 9 0).state.mOp.opSeqno = 1 ∧
    (HandleEvent EventCodes.sample false (ChunkReplicator.new 1) 9 0).state.mInProgress = true ∧
    (HandleEvent EventCodes.sample false (ChunkReplicator.new 1) 9 0).state.seqNum = 1 + 1 ∧
    (HandleEvent EventCodes.sample false (ChunkReplicator.new 1) 9 0).outcome = .returned 0 :=
  ChunkReplicator.timeout_idle_submits EventCodes.sample false (ChunkReplicator.new 1) 0 rfl
    (by decide) (by decide)

/-- C5: in a state with `mInProgress = true`, `HandleEvent(EVENT_TIMEOUT)` submits no request
and leaves the whole state (`mInProgress`, the op's `opSeqno`, the sequence counter)
unchanged; the call returns 0. -/
theorem ChunkReplicator.timeout_busy_noop (ec : EventCodes) (ndebug : Bool)
    (s : ChunkReplicator) (data : Nat) (hbusy : s.mInProgress = true) :
    (HandleEvent ec ndebug s ec.EVENT_TIMEOUT data).submitted = [] ∧
    (HandleEvent ec ndebug s ec.EVENT_TIMEOUT data).state = s ∧
    (HandleEvent ec ndebug s ec.EVENT_TIMEOUT data).state.mInProgress = true ∧
    (HandleEvent ec ndebug s ec.EVENT_TIMEOUT data).state.mOp.opSeqno = s.mOp.opSeqno ∧
    (HandleEvent ec ndebug s ec.EVENT_TIMEOUT data).state.seqNum = s.seqNum ∧
    (HandleEvent ec ndebug s ec.EVENT_TIMEOUT data).outcome = .returned 0 := by
  rw [HandleEvent_timeout_busy ec ndebug s data hbusy]
  exact ⟨rfl, rfl, hbusy, rfl, rfl, rfl⟩

/-- Witness of C5: a monitor with a check in progress, op number 4 and counter 5. -/
theorem ChunkReplicator.timeout_busy_noop_witness :
    (HandleEvent EventCodes.sample false
      { mInProgress := true, mOp := { opSeqno := 4 }, seqNum := 5 } 9 0).submitted = [] ∧
    (HandleEvent EventCodes.sample false
      { mInProgress := true, mOp := { opSeqno := 4 }, seqNum := 5 } 9 0).state
      = { mInProgress := true, mOp := { opSeqno := 4 }, seqNum := 5 } ∧
    (HandleEvent EventCodes.sample false
      { mInProgress := true, mOp := { opSeqno := 4 }, seqNum := 5 } 9 0).state.mInProgress
      = true ∧
    (HandleEvent EventCodes.sample false
      { mInProgress := true, mOp := { opSeqno := 4 }, seqNum := 5 } 9 0).state.mOp.opSeqno
      = 4 ∧
    (HandleEvent EventCodes.sample false
      { mInProgress := true, mOp := { opSeqno := 4 }, seqNum := 5 } 9 0).state.seqNum = 5 ∧
    (HandleEvent EventCodes.sample false
      { mInProgress := true, mOp := { opSeqno := 4 }, seqNum := 5 } 9 0).outcome
      = .returned 0 :=
  ChunkReplicator.timeout_busy_noop EventCodes.sample false
    { mInProgress := true, mOp := { opSeqno := 4 }, seqNum := 5 } 0 rfl

/-- C6: in every state, in progress or not, and for every data argument,
`HandleEvent(EVENT_CMD_DONE)` yields `mInProgress = false`, submits no request, leaves the
sequence counter (and the op) unchanged and returns 0. -/
theorem ChunkReplicator.cmd_done_returns_to_idle (ec : EventCodes) (ndebug : Bool)
    (s : ChunkReplicator) (data : Nat) :
    (HandleEvent ec ndebug s ec.EVENT_CMD_DONE data).state.mInProgress = false ∧
    (HandleEvent ec ndebug s ec.EVENT_CMD_DONE data).submitted = [] ∧
    (HandleEvent ec ndebug s ec.EVENT_CMD_DONE data).state.seqNum = s.seqNum ∧
    (HandleEvent ec ndebug s ec.EVENT_CMD_DONE data).state.mOp = s.mOp ∧
    (HandleEvent ec ndebug s ec.EVENT_CMD_DONE data).outcome = .returned 0 := by
  rw [HandleEvent_cmd_done ec ndebug s data]
  exact ⟨rfl, rfl, rfl, rfl, rfl⟩

/-! ## Theorems: strings, streams and the property map -/

theorem strFind_eq_none (s : Str) (c : Char) : strFind s c = none ↔ c ∉ s := by
  induction s with
  | nil => simp [strFind]
  | cons x xs ih =>
    by_cases h : x = c
    · simp [strFind, h]
    · simp [strFind, h, ih, Ne.symm h]

theorem strFind_append (pre post : Str) (c : Char) (h : c ∉ pre) :
    strFind (pre ++ c :: post) c = some pre.length := by
  induction pre with
  | nil => simp [strFind]
  | cons x xs ih =>
    have hx : x ≠ c := fun e => h (e ▸ List.mem_cons_self _ _)
    have hxs : c ∉ xs := fun e => h (List.mem_cons_of_mem _ e)
    simp [strFind, hx, ih hxs]

theorem strFind_eq_some (s : Str) (c : Char) (i : Nat) (h : strFind s c = some i) :
    s = s.take i ++ c :: s.drop (i + 1) ∧ c ∉ s.take i := by
  induction s generalizing i with
  | nil => simp [strFind] at h
  | cons x xs ih =>
    by_cases hx : x = c
    · simp [strFind, hx] at h
      subst h
      simp [hx]
    · simp only [strFind, hx, if_false, Option.map_eq_some'] at h
      obtain ⟨j, hj, rfl⟩ := h
      obtain ⟨h1, h2⟩ := ih j hj
      refine ⟨?_, ?_⟩
      · simp only [List.take_succ_cons, List.drop_succ_cons, List.cons_append]
        rw [← h1]
      · simp only [List.take_succ_cons, List.mem_cons, not_or]
        exact ⟨fun e => hx e.symm, h2⟩

/-- A position returned by `find` is inside the string, so `substr(0, pos)` and
`substr(pos + 1)` in `loadProperties` do not throw `out_of_range`. -/
theorem strFind_lt (s : Str) (c : Char) (i : Nat) (h : strFind s c = some i) :
    i < s.length := by
  obtain ⟨h1, _⟩ := strFind_eq_some s c i h
  have h2 := congrArg List.length h1
  simp only [List.length_append, List.length_cons, List.length_take, List.length_drop] at h2
  omega

/-- The position `notwhite + 1` passed to the second `erase` of `removeLTSpaces` is at most
the size of the string, so `erase` does not throw `out_of_range`. -/
theorem sizeSucc_findLastNotOf_le (s d : Str) : sizeSucc (findLastNotOf s d) ≤ s.length := by
  induction s with
  | nil => simp [findLastNotOf, sizeSucc]
  | cons x xs ih =>
    cases h : findLastNotOf xs d with
    | some i =>
      rw [h] at ih
      simp only [sizeSucc] at ih
      simp only [findLastNotOf, h, sizeSucc, List.length_cons]
      omega
    | none =>
      by_cases hx : x ∈ d <;> simp [findLastNotOf, h, hx, sizeSucc]

theorem strFind_hash_zero (line : Str) : strFind line '#' = some 0 ↔ line.head? = some '#' := by
  cases line with
  | nil => simp [strFind]
  | cons x xs =>
    by_cases h : x = '#'
    · simp [strFind, h]
    · simp [strFind, h]

/-- The loop lines of a text that begins with a complete line. -/
theorem loopLinesAux_line (cur l rest : Str) (h : '\n' ∉ l) :
    loopLinesAux cur (l ++ '\n' :: rest) = (cur ++ l) :: loopLinesAux [] rest := by
  induction l generalizing cur with
  | nil => simp [loopLinesAux]
  | cons x xs ih =>
    have hx : x ≠ '\n' := fun e => h (e ▸ List.mem_cons_self _ _)
    have hxs : '\n' ∉ xs := fun e => h (List.mem_cons_of_mem _ e)
    simp [loopLinesAux, hx, ih _ hxs]

/-- The loop lines of a text without a newline. -/
theorem loopLinesAux_last (cur l : Str) (h : '\n' ∉ l) :
    loopLinesAux cur l = if cur ++ l = [] then [[]] else [cur ++ l, cur ++ l] := by
  induction l generalizing cur with
  | nil => simp [loopLinesAux]
  | cons x xs ih =>
    have hx : x ≠ '\n' := fun e => h (e ▸ List.mem_cons_self _ _)
    have hxs : '\n' ∉ xs := fun e => h (List.mem_cons_of_mem _ e)
    simp [loopLinesAux, hx, ih _ hxs]

theorem getline_line (l rest line : Str) (h : '\n' ∉ l) :
    getline (IStream.ofText (l ++ '\n' :: rest)) line = (IStream.ofText rest, l) := by
  have hf := strFind_append l rest '\n' h
  cases hl : l ++ '\n' :: rest with
  | nil => simp at hl
  | cons c cs =>
    rw [hl] at hf
    simp only [getline, IStream.ofText, IStream.good, Bool.not_false, Bool.and_self, if_true, hf]
    rw [← hl]
    simp

theorem getline_last (l line : Str) (h : '\n' ∉ l) (hne : l ≠ []) :
    getline (IStream.ofText l) line = ({ buf := [], eofbit := true, failbit := false }, l) := by
  have hf := (strFind_eq_none l '\n').mpr h
  cases l with
  | nil => exact absurd rfl hne
  | cons c cs =>
    simp only [getline, IStream.ofText, IStream.good, Bool.not_false, Bool.and_self, if_true, hf]

theorem loadLine_nil (delimiter : Char) (verbose multiline : Bool) (s : LoadState) :
    loadLine delimiter verbose multiline [] s = s := by
  simp [loadLine, strFind]

/-- The loop of `loadProperties` on a fresh stream handles exactly the lines `loopLines`, in
order, whenever it is given at least `text.length + 3` tests of its condition. -/
theorem loadLoop_eq_foldl (delimiter : Char) (verbose multiline : Bool) (fuel : Nat)
    (text line : Str) (s : LoadState) (hfuel : text.length + 3 ≤ fuel) :
    loadLoop delimiter verbose multiline fuel (IStream.ofText text) line s =
      some ((loopLines text).foldl (fun st l => loadLine delimiter verbose multiline l st) s) := by
  induction fuel generalizing text line s with
  | zero => omega
  | succ f ih =>
    by_cases hnl : '\n' ∈ text
    · -- a complete line is read
      have hfind : strFind text '\n' ≠ none := fun e => (strFind_eq_none _ _).mp e hnl
      obtain ⟨i, hi⟩ := Option.ne_none_iff_exists'.mp hfind
      obtain ⟨hsplit, hpre⟩ := strFind_eq_some text '\n' i hi
      have hlen : (text.drop (i + 1)).length + 3 ≤ f := by
        have : text.length = (text.take i).length + ((text.drop (i + 1)).length + 1) := by
          conv_lhs => rw [hsplit]
          simp
        omega
      rw [loadLoop]
      simp only [IStream.toBool, IStream.ofText, Bool.not_false, if_true]
      have hg := getline_line (text.take i) (text.drop (i + 1)) line hpre
      rw [← hsplit] at hg
      simp only [IStream.ofText] at hg
      rw [hg]
      have := ih (text.drop (i + 1)) (text.take i)
        (loadLine delimiter verbose multiline (text.take i) s) hlen
      simp only [IStream.ofText] at this
      rw [this]
      conv_rhs => rw [hsplit]
      simp only [loopLines]
      rw [loopLinesAux_line [] _ _ hpre]
      simp
    · -- the rest of the text has no newline
      rw [loadLoop]
      simp only [IStream.toBool, IStream.ofText, Bool.not_false, if_true]
      cases htext : text with
      | nil =>
        obtain ⟨f1, rfl⟩ : ∃ f1, f = f1 + 1 := ⟨f - 1, by omega⟩
        simp [getline, IStream.good, loadLoop, IStream.toBool, loopLines, loopLinesAux]
      | cons c cs =>
        have hne : text ≠ [] := by rw [htext]; simp
        have hg := getline_last text line hnl hne
        simp only [IStream.ofText] at hg
        rw [← htext, hg]
        have hl : text.length = cs.length + 1 := by rw [htext]; simp
        obtain ⟨f2, rfl⟩ : ∃ f2, f = f2 + 2 := ⟨f - 2, by omega⟩
        simp only [loopLines]
        rw [loopLinesAux_last [] text hnl]
        simp [loadLoop, IStream.toBool, getline, IStream.good, hne]

/-- The loop of `loadProperties` ends on every stream, in whatever state the stream is: the
`ist.buf.length + 3` tests of the loop condition that `loadProperties` allows are enough. -/
theorem loadLoop_terminates (delimiter : Char) (verbose multiline : Bool) (fuel : Nat)
    (ist : IStream) (line : Str) (s : LoadState)
    (hfuel : (if ist.failbit then 0 else if ist.eofbit then 1 else ist.buf.length + 2) < fuel) :
    ∃ r, loadLoop delimiter verbose multiline fuel ist line s = some r := by
  induction fuel generalizing ist line s with
  | zero => omega
  | succ f ih =>
    rw [loadLoop]
    obtain ⟨buf, eofbit, failbit⟩ := ist
    cases failbit with
    | true => simp [IStream.toBool]
    | false =>
      simp only [IStream.toBool, Bool.not_false, if_true]
      apply ih
      cases eofbit with
      | true =>
        simp only [getline, IStream.good]
        simp at hfuel ⊢
        omega
      | false =>
        simp only [Bool.false_eq_true, if_false] at hfuel
        cases buf with
        | nil => simp [getline, IStream.good]; omega
        | cons c cs =>
          cases hfind : strFind (c :: cs) '\n' with
          | none =>
            have hg : getline { buf := c :: cs, eofbit := false, failbit := false } line
                = ({ buf := [], eofbit := true, failbit := false }, c :: cs) := by
              simp [getline, IStream.good, hfind]
            rw [hg]
            simp at hfuel ⊢
            omega
          | some i =>
            have hg : getline { buf := c :: cs, eofbit := false, failbit := false } line
                = ({ buf := (c :: cs).drop (i + 1), eofbit := false, failbit := false },
                    (c :: cs).take i) := by
              simp [getline, IStream.good, hfind]
            rw [hg]
            simp at hfuel ⊢
            omega

/-- The method `loadProperties` returns on every stream, and the value it returns is 0. -/
theorem loadProperties_returns (m : PropMap) (ist : IStream) (delimiter : Char)
    (verbose multiline : Bool) :
    ∃ r, loadProperties m ist delimiter verbose multiline = some r ∧ r.ret = 0 := by
  obtain ⟨st, hst⟩ := loadLoop_terminates delimiter verbose multiline (ist.buf.length + 3) ist []
    { propmap := m, out := [] } (by split_ifs <;> omega)
  exact ⟨{ ret := 0, propmap := st.propmap, out := st.out }, by simp [loadProperties, hst], rfl⟩

/-- On a fresh stream `loadProperties` handles the lines `loopLines` of the text in order. -/
theorem loadProperties_eq_foldl (m : PropMap) (text : Str) (delimiter : Char)
    (verbose multiline : Bool) :
    loadProperties m (IStream.ofText text) delimiter verbose multiline =
      some { ret := 0,
             propmap := ((loopLines text).foldl
               (fun st l => loadLine delimiter verbose multiline l st)
               { propmap := m, out := [] }).propmap,
             out := ((loopLines text).foldl
               (fun st l => loadLine delimiter verbose multiline l st)
               { propmap := m, out := [] }).out } := by
  simp only [loadProperties]
  rw [show (IStream.ofText text).buf = text from rfl,
    loadLoop_eq_foldl delimiter verbose multiline _ text [] _ (le_refl _)]
  rfl

theorem PropMap.find_assign_self (m : PropMap) (key value : Str) :
    (m.assign key value).find key = some value := by
  induction m with
  | nil => simp [PropMap.assign, PropMap.find]
  | cons p rest ih =>
    obtain ⟨k, v⟩ := p
    by_cases h1 : k = key
    · simp [PropMap.assign, PropMap.find, h1]
    · by_cases h2 : strLess key k = true
      · simp [PropMap.assign, PropMap.find, h1, h2]
      · simp [PropMap.assign, PropMap.find, h1, h2, ih]

theorem PropMap.find_assign_ne (m : PropMap) (key value other : Str) (h : other ≠ key) :
    (m.assign key value).find other = m.find other := by
  induction m with
  | nil => simp [PropMap.assign, PropMap.find, Ne.symm h]
  | cons p rest ih =>
    obtain ⟨k, v⟩ := p
    by_cases h1 : k = key
    · have h3 : k ≠ other := fun e => h (e ▸ h1)
      simp [PropMap.assign, PropMap.find, h1, Ne.symm h]
    · by_cases h2 : strLess key k = true
      · simp [PropMap.assign, PropMap.find, h1, h2, Ne.symm h]
      · by_cases h3 : k = other
        · subst h3
          simp [PropMap.assign, PropMap.find, h, h2]
        · simp [PropMap.assign, PropMap.find, h1, h2, h3, ih]

theorem PropMap.subscript_of_find (m : PropMap) (key v : Str) (h : m.find key = some v) :
    m.subscript key = (v, m) := by
  simp [PropMap.subscript, h]

theorem PropMap.subscript_fst (m : PropMap) (key : Str) :
    (m.subscript key).1 = (m.find key).getD [] := by
  cases h : m.find key <;> simp [PropMap.subscript, h]

theorem PropMap.find_subscript_ne (m : PropMap) (key other : Str) (h : other ≠ key) :
    (m.subscript key).2.find other = m.find other := by
  cases h1 : m.find key with
  | none => simp [PropMap.subscript, h1, PropMap.find_assign_ne _ _ _ _ h]
  | some v => simp [PropMap.subscript, h1]

/-- A line that contains the delimiter splits at its first delimiter. -/
theorem split_at_delimiter (line : Str) (delimiter : Char) (h : delimiter ∈ line) :
    line = keyText line delimiter ++ delimiter :: valueText line delimiter ∧
    delimiter ∉ keyText line delimiter := by
  induction line with
  | nil => simp at h
  | cons x xs ih =>
    by_cases hx : x = delimiter
    · simp [keyText, valueText, List.takeWhile, List.dropWhile, hx]
    · have hxs : delimiter ∈ xs := by
        rcases List.mem_cons.mp h with e | e
        · exact absurd e.symm hx
        · exact e
      obtain ⟨h1, h2⟩ := ih hxs
      have hb : (x != delimiter) = true := by simpa using hx
      simp only [keyText, valueText, List.takeWhile, List.dropWhile, hb] at h1 h2 ⊢
      refine ⟨?_, ?_⟩
      · rw [List.cons_append, ← h1]
      · simp only [List.mem_cons, not_or]
        exact ⟨fun e => hx e.symm, h2⟩

theorem strFind_delimiter (line : Str) (delimiter : Char) (h : delimiter ∈ line) :
    strFind line delimiter = some (keyText line delimiter).length := by
  obtain ⟨h1, h2⟩ := split_at_delimiter line delimiter h
  generalize keyText line delimiter = k at h1 h2 ⊢
  generalize valueText line delimiter = v at h1
  subst h1
  exact strFind_append _ _ _ h2

theorem substr_key (line : Str) (delimiter : Char) (h : delimiter ∈ line) :
    substr line 0 (some (keyText line delimiter).length) = keyText line delimiter := by
  obtain ⟨h1, _⟩ := split_at_delimiter line delimiter h
  generalize keyText line delimiter = k at h1 ⊢
  generalize valueText line delimiter = v at h1
  subst h1
  simp [substr]

theorem substr_value (line : Str) (delimiter : Char) (h : delimiter ∈ line) :
    substr line ((keyText line delimiter).length + 1) none = valueText line delimiter := by
  obtain ⟨h1, _⟩ := split_at_delimiter line delimiter h
  generalize keyText line delimiter = k at h1 ⊢
  generalize valueText line delimiter = v at h1 ⊢
  subst h1
  simp [substr]

/-- What the loop body does to the map on a line that is not a comment and contains the
delimiter: the trimmed value is stored under, or appended to the value of, the trimmed key. -/
theorem loadLine_key_value (delimiter : Char) (verbose multiline : Bool) (line : Str)
    (s : LoadState) (hcomment : line.head? ≠ some '#') (hdelim : delimiter ∈ line) :
    (loadLine delimiter verbose multiline line s).propmap =
      (s.propmap.subscript (removeLTSpaces (keyText line delimiter))).2.assign
        (removeLTSpaces (keyText line delimiter))
        (if multiline then
          (s.propmap.subscript (removeLTSpaces (keyText line delimiter))).1
            ++ removeLTSpaces (valueText line delimiter)
         else removeLTSpaces (valueText line delimiter)) := by
  have h1 : strFind line '#' ≠ some 0 := fun e => hcomment ((strFind_hash_zero line).mp e)
  simp only [loadLine, h1, if_false, strFind_delimiter line delimiter hdelim,
    substr_key line delimiter hdelim, substr_value line delimiter hdelim]
  cases multiline <;> cases verbose <;>
    simp [PropMap.subscript_of_find _ _ _ (PropMap.find_assign_self _ _ _)]

/-- The loop body leaves the state as it is on a comment line and on a line without the
delimiter. -/
theorem loadLine_ignored (delimiter : Char) (verbose multiline : Bool) (line : Str)
    (s : LoadState) (h : line.head? = some '#' ∨ delimiter ∉ line) :
    loadLine delimiter verbose multiline line s = s := by
  rcases h with h | h
  · simp [loadLine, (strFind_hash_zero line).mpr h]
  · simp [loadLine, (strFind_eq_none line delimiter).mpr h]

theorem loopLines_terminated (line : Str) (h : '\n' ∉ line) :
    loopLines (line ++ ['\n']) = [line, []] := by
  simp only [loopLines]
  rw [loopLinesAux_line [] line [] h]
  simp [loopLinesAux]

theorem loopLines_unterminated (line : Str) (h : '\n' ∉ line) (hne : line ≠ []) :
    loopLines line = [line, line] := by
  simp only [loopLines]
  rw [loopLinesAux_last [] line h]
  simp [hne]

/-! ## Theorems: `removeLTSpaces` -/

theorem erase_leading (s d : Str) :
    ∃ a : Str, s = a ++ erase s 0 (findFirstNotOf s d) ∧ (∀ c ∈ a, c ∈ d) ∧
      (∀ c, (erase s 0 (findFirstNotOf s d)).head? = some c → c ∉ d) := by
  induction s with
  | nil => exact ⟨[], by simp [findFirstNotOf, erase], by simp, by simp [findFirstNotOf, erase]⟩
  | cons x xs ih =>
    by_cases hx : x ∈ d
    · obtain ⟨a, h1, h2, h3⟩ := ih
      have he : erase (x :: xs) 0 (findFirstNotOf (x :: xs) d)
          = erase xs 0 (findFirstNotOf xs d) := by
        simp only [findFirstNotOf, hx, if_true]
        cases findFirstNotOf xs d <;> simp [erase]
      rw [he]
      refine ⟨x :: a, ?_, ?_, h3⟩
      · rw [List.cons_append, ← h1]
      · intro c hc
        rcases List.mem_cons.mp hc with e | e
        · exact e ▸ hx
        · exact h2 c e
    · refine ⟨[], ?_, by simp, ?_⟩
      · simp [findFirstNotOf, hx, erase]
      · intro c hc
        simp [findFirstNotOf, hx, erase] at hc
        exact hc ▸ hx

theorem erase_trailing (s d : Str) :
    ∃ b : Str, s = erase s (sizeSucc (findLastNotOf s d)) none ++ b ∧ (∀ c ∈ b, c ∈ d) ∧
      (∀ c, (erase s (sizeSucc (findLastNotOf s d)) none).getLast? = some c → c ∉ d) := by
  induction s with
  | nil => exact ⟨[], by simp [findLastNotOf, erase, sizeSucc], by simp,
      by simp [findLastNotOf, erase, sizeSucc]⟩
  | cons x xs ih =>
    obtain ⟨b, h1, h2, h3⟩ := ih
    cases hf : findLastNotOf xs d with
    | some i =>
      rw [hf] at h1 h3
      simp only [erase, sizeSucc] at h1 h3
      have hne : xs.take (i + 1) ≠ [] := by
        cases xs with
        | nil => simp [findLastNotOf] at hf
        | cons y ys => simp
      refine ⟨b, ?_, h2, ?_⟩
      · simp only [findLastNotOf, hf, erase, sizeSucc, List.take_succ_cons, List.cons_append]
        rw [← h1]
      · intro c hc
        simp only [findLastNotOf, hf, erase, sizeSucc, List.take_succ_cons] at hc
        obtain ⟨y, ys, hys⟩ := List.exists_cons_of_ne_nil hne
        rw [hys, List.getLast?_cons_cons, ← hys] at hc
        exact h3 c hc
    | none =>
      rw [hf] at h1
      simp only [erase, sizeSucc, List.take_zero, List.nil_append] at h1
      by_cases hx : x ∈ d
      · refine ⟨x :: xs, by simp [findLastNotOf, hf, hx, erase, sizeSucc], ?_,
          by simp [findLastNotOf, hf, hx, erase, sizeSucc]⟩
        intro c hc
        rcases List.mem_cons.mp hc with e | e
        · exact e ▸ hx
        · exact h2 c (h1 ▸ e)
      · refine ⟨xs, by simp [findLastNotOf, hf, hx, erase, sizeSucc], ?_, ?_⟩
        · intro c hc
          exact h2 c (h1 ▸ hc)
        · intro c hc
          simp [findLastNotOf, hf, hx, erase, sizeSucc] at hc
          exact hc ▸ hx

theorem head?_take_some (l : Str) (n : Nat) (c : Char) (h : (l.take n).head? = some c) :
    l.head? = some c := by
  cases l with
  | nil => simp at h
  | cons x xs =>
    cases n with
    | zero => simp at h
    | succ n => simpa using h

/-- The method `removeLTSpaces` removes the leading and the trailing space, tab, CR and LF
characters of its argument and nothing else. -/
theorem removeLTSpaces_isTrimOf (s : Str) : IsTrimOf s (removeLTSpaces s) := by
  obtain ⟨a, h1, h2, h3⟩ := erase_leading s delims
  obtain ⟨b, h4, h5, h6⟩ := erase_trailing (erase s 0 (findFirstNotOf s delims)) delims
  refine ⟨a, b, ?_, h2, h5, ?_, h6⟩
  · simp only [removeLTSpaces]
    rw [List.append_assoc, ← h4, ← h1]
  · intro c hc
    simp only [removeLTSpaces, erase] at hc
    exact h3 c (head?_take_some _ _ c hc)

/-! ## Theorems: `Properties` -/

/-- C7: a line that does not begin with `#` and contains the delimiter is cut at its first
delimiter; loading it with multiline off (with or without a newline after it) returns 0 and
stores, under the trimmed text before the first delimiter, the trimmed text after it, which
`getValue` then returns whatever the default. -/
theorem loadProperties_key_value (m : PropMap) (delimiter : Char) (verbose : Bool)
    (line def_ : Str) (hline : '\n' ∉ line) (hcomment : line.head? ≠ some '#')
    (hdelim : delimiter ∈ line) :
    line = keyText line delimiter ++ delimiter :: valueText line delimiter ∧
    delimiter ∉ keyText line delimiter ∧
    IsTrimOf (keyText line delimiter) (removeLTSpaces (keyText line delimiter)) ∧
    IsTrimOf (valueText line delimiter) (removeLTSpaces (valueText line delimiter)) ∧
    (∃ r, loadProperties m (IStream.ofText (line ++ ['\n'])) delimiter verbose false = some r ∧
      r.ret = 0 ∧
      r.propmap.find (removeLTSpaces (keyText line delimiter))
        = some (removeLTSpaces (valueText line delimiter)) ∧
      getValue r.propmap (removeLTSpaces (keyText line delimiter)) def_
        = (removeLTSpaces (valueText line delimiter), r.propmap)) ∧
    (∃ r, loadProperties m (IStream.ofText line) delimiter verbose false = some r ∧
      r.ret = 0 ∧
      r.propmap.find (removeLTSpaces (keyText line delimiter))
        = some (removeLTSpaces (valueText line delimiter)) ∧
      getValue r.propmap (removeLTSpaces (keyText line delimiter)) def_
        = (removeLTSpaces (valueText line delimiter), r.propmap)) := by
  obtain ⟨hsplit, hkey⟩ := split_at_delimiter line delimiter hdelim
  have hne : line ≠ [] := by
    intro e
    rw [e] at hdelim
    simp at hdelim
  have hget : ∀ (pm : PropMap) (k v : Str), pm.find k = some v →
      getValue pm k def_ = (v, pm) := by
    intro pm k v h
    simp [getValue, h, PropMap.subscript]
  refine ⟨hsplit, hkey, removeLTSpaces_isTrimOf _, removeLTSpaces_isTrimOf _, ?_, ?_⟩
  · rw [loadProperties_eq_foldl, loopLines_terminated line hline]
    have hfind : ((([line, []] : List Str).foldl
        (fun st l => loadLine delimiter verbose false l st)
        { propmap := m, out := [] }).propmap).find (removeLTSpaces (keyText line delimiter))
        = some (removeLTSpaces (valueText line delimiter)) := by
      simp only [List.foldl, loadLine_nil]
      rw [loadLine_key_value delimiter verbose false line _ hcomment hdelim]
      simp [PropMap.find_assign_self]
    exact ⟨_, rfl, rfl, hfind, hget _ _ _ hfind⟩
  · rw [loadProperties_eq_foldl, loopLines_unterminated line hline hne]
    have hfind : ((([line, line] : List Str).foldl
        (fun st l => loadLine delimiter verbose false l st)
        { propmap := m, out := [] }).propmap).find (removeLTSpaces (keyText line delimiter))
        = some (removeLTSpaces (valueText line delimiter)) := by
      simp only [List.foldl]
      rw [loadLine_key_value delimiter verbose false line _ hcomment hdelim]
      simp [PropMap.find_assign_self]
    exact ⟨_, rfl, rfl, hfind, hget _ _ _ hfind⟩

/-- Witness of C7: the input `"  key  = value with spaces  \n"` with delimiter `=` gives
`getValue("key", "") == "value with spaces"`. -/
theorem loadProperties_key_value_witness :
    ∃ r, loadProperties [] (IStream.ofText "  key  = value with spaces  \n".toList)
        '=' false false = some r ∧
      getValue r.propmap "key".toList "".toList = ("value with spaces".toList, r.propmap) := by
  obtain ⟨_, _, _, _, ⟨r, h1, _, _, h2⟩, _⟩ :=
    loadProperties_key_value [] '=' false "  key  = value with spaces  ".toList "".toList
      (by decide) (by decide) (by decide)
  exact ⟨r, h1, h2⟩

/-- C9: for a key absent from the map, every typed `getValue` accessor (string, C string,
int, long, long long, uint64_t, double) returns exactly the caller's default and leaves the
map unchanged; the accessors have no error result. -/
theorem getValue_absent_returns_default {D : Type} (m : PropMap) (key : Str)
    (atoi atoll : Str → Int) (toLong : Int → Int) (atof : Str → D)
    (defStr : Str) (defCStr : Option Str) (defInt defLong defLongLong : Int) (defUInt64 : Nat)
    (defDouble : D) (habsent : m.find key = none) :
    getValue m key defStr = (defStr, m) ∧
    getValueCStr m key defCStr = (defCStr, m) ∧
    getValueInt atoi m key defInt = (defInt, m) ∧
    getValueLong atoll toLong m key defLong = (defLong, m) ∧
    getValueLongLong atoll m key defLongLong = (defLongLong, m) ∧
    getValueUInt64 atoll m key defUInt64 = (defUInt64, m) ∧
    getValueDouble atof m key defDouble = (defDouble, m) := by
  simp [getValue, getValueCStr, getValueInt, getValueLong, getValueLongLong, getValueUInt64,
    getValueDouble, habsent]

/-- Witness of C9: the map holding only `a = 1` and the absent key `b`. -/
theorem getValue_absent_returns_default_witness :
    getValue [("a".toList, "1".toList)] "b".toList "dflt".toList
      = ("dflt".toList, [("a".toList, "1".toList)]) ∧
    getValueCStr [("a".toList, "1".toList)] "b".toList none
      = (none, [("a".toList, "1".toList)]) ∧
    getValueInt (fun _ => 0) [("a".toList, "1".toList)] "b".toList 7
      = (7, [("a".toList, "1".toList)]) ∧
    getValueLong (fun _ => 0) (fun x => x) [("a".toList, "1".toList)] "b".toList (-7)
      = (-7, [("a".toList, "1".toList)]) ∧
    getValueLongLong (fun _ => 0) [("a".toList, "1".toList)] "b".toList 8
      = (8, [("a".toList, "1".toList)]) ∧
    getValueUInt64 (fun _ => 0) [("a".toList, "1".toList)] "b".toList 9
      = (9, [("a".toList, "1".toList)]) ∧
    getValueDouble (fun _ => false) [("a".toList, "1".toList)] "b".toList true
      = (true, [("a".toList, "1".toList)]) :=
  getValue_absent_returns_default [("a".toList, "1".toList)] "b".toList (fun _ => 0)
    (fun _ => 0) (fun x => x) (fun _ => false) "dflt".toList none 7 (-7) 8 9 true (by decide)

/-- C10: loading a line whose first character is `#`, or a line that does not contain the
delimiter, leaves the map unchanged and returns 0, for every map, delimiter, verbose and
multiline setting, with or without a newline after the line. -/
theorem loadProperties_ignored_line (m : PropMap) (delimiter : Char) (verbose multiline : Bool)
    (line : Str) (hline : '\n' ∉ line)
    (hignored : line.head? = some '#' ∨ delimiter ∉ line) :
    loadProperties m (IStream.ofText (line ++ ['\n'])) delimiter verbose multiline
      = some { ret := 0, propmap := m, out := [] } ∧
    loadProperties m (IStream.ofText line) delimiter verbose multiline
      = some { ret := 0, propmap := m, out := [] } := by
  constructor
  · rw [loadProperties_eq_foldl, loopLines_terminated line hline]
    simp only [List.foldl, loadLine_nil, loadLine_ignored delimiter verbose multiline line _ hignored]
  · rw [loadProperties_eq_foldl]
    by_cases hne : line = []
    · subst hne
      simp [loopLines, loopLinesAux, loadLine_nil]
    · rw [loopLines_unterminated line hline hne]
      simp only [List.foldl, loadLine_ignored delimiter verbose multiline line _ hignored]

/-- Witness of C10: the comment line `#a=b`, which contains the delimiter `=`, loaded into
the map holding `a = 1` with multiline on. -/
theorem loadProperties_ignored_line_witness :
    loadProperties [("a".toList, "1".toList)] (IStream.ofText ("#a=b".toList ++ ['\n']))
        '=' false true
      = some { ret := 0, propmap := [("a".toList, "1".toList)], out := [] } ∧
    loadProperties [("a".toList, "1".toList)] (IStream.ofText "#a=b".toList) '=' false true
      = some { ret := 0, propmap := [("a".toList, "1".toList)], out := [] } :=
  loadProperties_ignored_line [("a".toList, "1".toList)] '=' false true "#a=b".toList
    (by decide) (Or.inl (by decide))

/-- C8 at the failing input: with multiline on, the text `k=v` without a final newline leaves
`vv` under `k`, the only line of the text being handled twice, while the same line followed
by a newline leaves `v`. -/
theorem loadProperties_multiline_last_line_twice :
    loadProperties [] (IStream.ofText "k=v".toList) '=' false true
      = some { ret := 0, propmap := [("k".toList, "vv".toList)], out := [] } ∧
    lineValues '=' "k".toList (textLines "k=v".toList) = ["v".toList] ∧
    loadProperties [] (IStream.ofText "k=v\n".toList) '=' false true
      = some { ret := 0, propmap := [("k".toList, "v".toList)], out := [] } := by
  decide

/-! ## Theorems: what `loadProperties` stores for a key over a whole text -/

theorem loopLinesAux_eq (cur text : Str) :
    loopLinesAux cur text = textLinesAux cur text ++ [lastPartialAux cur text] := by
  induction text generalizing cur with
  | nil =>
    by_cases h : cur = []
    · simp [loopLinesAux, textLinesAux, lastPartialAux, h]
    · simp [loopLinesAux, textLinesAux, lastPartialAux, h]
  | cons c cs ih =>
    by_cases h : c = '\n'
    · simp [loopLinesAux, textLinesAux, lastPartialAux, h, ih]
    · simp [loopLinesAux, textLinesAux, lastPartialAux, h, ih]

/-- The loop handles the lines of the text and then, once more, the characters after the
last newline. -/
theorem loopLines_eq (text : Str) : loopLines text = textLines text ++ [lastPartial text] :=
  loopLinesAux_eq [] text

theorem textLinesAux_last (cur text : Str) (h : lastPartialAux cur text ≠ []) :
    ∃ init, textLinesAux cur text = init ++ [lastPartialAux cur text] := by
  induction text generalizing cur with
  | nil =>
    have hc : cur ≠ [] := by simpa [lastPartialAux] using h
    exact ⟨[], by simp [textLinesAux, lastPartialAux, hc]⟩
  | cons c cs ih =>
    by_cases hn : c = '\n'
    · simp only [lastPartialAux, hn, if_true] at h
      obtain ⟨init, hinit⟩ := ih [] h
      exact ⟨cur :: init, by simp [textLinesAux, lastPartialAux, hn, hinit]⟩
    · simp only [lastPartialAux, hn, if_false] at h
      obtain ⟨init, hinit⟩ := ih _ h
      exact ⟨init, by simp [textLinesAux, lastPartialAux, hn, hinit]⟩

theorem lineValue_nil (delimiter : Char) (k : Str) : lineValue delimiter k [] = none := by
  simp [lineValue]

/-- The value stored under `k` after the loop body has handled one line. -/
theorem loadLine_find (delimiter : Char) (verbose multiline : Bool) (line : Str)
    (s : LoadState) (k : Str) :
    (loadLine delimiter verbose multiline line s).propmap.find k =
      match lineValue delimiter k line with
      | some val => some (if multiline then (s.propmap.find k).getD [] ++ val else val)
      | none => s.propmap.find k := by
  by_cases hc : line.head? = some '#'
  · rw [loadLine_ignored delimiter verbose multiline line s (Or.inl hc)]
    simp [lineValue, hc]
  · by_cases hd : delimiter ∈ line
    · rw [loadLine_key_value delimiter verbose multiline line s hc hd]
      by_cases hk : removeLTSpaces (keyText line delimiter) = k
      · subst hk
        simp [lineValue, hc, hd, PropMap.find_assign_self, PropMap.subscript_fst]
      · have hk1 : k ≠ removeLTSpaces (keyText line delimiter) := fun e => hk e.symm
        rw [PropMap.find_assign_ne _ _ _ _ hk1, PropMap.find_subscript_ne _ _ _ hk1]
        simp [lineValue, hk]
    · rw [loadLine_ignored delimiter verbose multiline line s (Or.inr hd)]
      simp [lineValue, hd]

theorem lineValues_append_singleton (delimiter : Char) (k : Str) (ls : List Str) (l : Str) :
    lineValues delimiter k (ls ++ [l]) =
      lineValues delimiter k ls ++ (lineValue delimiter k l).toList := by
  simp only [lineValues, List.filterMap_append]
  cases h : lineValue delimiter k l <;> simp [List.filterMap, h]

/-- With multiline on, the lines of a list append their values for `k`, in order, to the
value stored under `k`; a key to which no line gives a value keeps its entry, or stays
absent. -/
theorem foldl_loadLine_multiline (delimiter : Char) (verbose : Bool) (lines : List Str)
    (s : LoadState) (k : Str) :
    (((lines.foldl (fun st l => loadLine delimiter verbose true l st) s).propmap.find k).getD []
      = (s.propmap.find k).getD [] ++ (lineValues delimiter k lines).flatten) ∧
    (lineValues delimiter k lines = [] →
      (lines.foldl (fun st l => loadLine delimiter verbose true l st) s).propmap.find k
        = s.propmap.find k) := by
  induction lines using List.reverseRecOn with
  | nil => simp [lineValues]
  | append_singleton ls l ih =>
    obtain ⟨ih1, ih2⟩ := ih
    rw [List.foldl_append, lineValues_append_singleton]
    simp only [List.foldl, loadLine_find]
    cases h : lineValue delimiter k l with
    | none => simpa using ⟨ih1, ih2⟩
    | some val => simp [ih1]

/-- With multiline off, the value stored under `k` is the value of the last line that gives
one; a key to which no line gives a value keeps its entry, or stays absent. -/
theorem foldl_loadLine_overwrite (delimiter : Char) (verbose : Bool) (lines : List Str)
    (s : LoadState) (k : Str) :
    (lines.foldl (fun st l => loadLine delimiter verbose false l st) s).propmap.find k =
      match (lineValues delimiter k lines).getLast? with
      | some val => some val
      | none => s.propmap.find k := by
  induction lines using List.reverseRecOn with
  | nil => simp [lineValues]
  | append_singleton ls l ih =>
    rw [List.foldl_append, lineValues_append_singleton]
    simp only [List.foldl, loadLine_find]
    cases h : lineValue delimiter k l with
    | none => simpa using ih
    | some val => simp

/-- Handling the characters after the last newline a second time does not change which line
is the last to give `k` a value. -/
theorem lineValues_loopLines_getLast? (delimiter : Char) (k : Str) (text : Str) :
    (lineValues delimiter k (loopLines text)).getLast?
      = (lineValues delimiter k (textLines text)).getLast? := by
  rw [loopLines_eq, lineValues_append_singleton]
  by_cases h : lastPartial text = []
  · simp [h, lineValue_nil]
  · obtain ⟨init, hinit⟩ := textLinesAux_last [] text h
    have hinit1 : textLines text = init ++ [lastPartial text] := hinit
    rw [hinit1, lineValues_append_singleton]
    cases lineValue delimiter k (lastPartial text) with
    | none => simp
    | some val => simp [List.getLast?_append]

/-- What `loadProperties` stores with multiline on, for every text: the previous value of `k`
followed by the values of the lines of the text and then by the value of the characters after
the last newline, which the loop handles once more. -/
theorem loadProperties_multiline_stored (m : PropMap) (text : Str) (delimiter : Char)
    (verbose : Bool) (k : Str) :
    ∃ r, loadProperties m (IStream.ofText text) delimiter verbose true = some r ∧ r.ret = 0 ∧
      (r.propmap.find k).getD [] = (m.find k).getD []
        ++ (lineValues delimiter k (textLines text)).flatten
        ++ ((lineValue delimiter k (lastPartial text)).toList).flatten := by
  refine ⟨_, loadProperties_eq_foldl m text delimiter verbose true, rfl, ?_⟩
  simp only
  rw [(foldl_loadLine_multiline delimiter verbose (loopLines text) _ k).1, loopLines_eq,
    lineValues_append_singleton]
  simp

/-- With multiline on and a text that is empty or ends with a newline, the value stored
under `k` is its previous value (empty if absent) followed by the values, in line order, of
the lines of the text whose key is `k`, each once. -/
theorem loadProperties_multiline_terminated (m : PropMap) (text : Str) (delimiter : Char)
    (verbose : Bool) (k : Str) (hterm : lastPartial text = []) :
    ∃ r, loadProperties m (IStream.ofText text) delimiter verbose true = some r ∧ r.ret = 0 ∧
      (r.propmap.find k).getD [] = (m.find k).getD []
        ++ (lineValues delimiter k (textLines text)).flatten := by
  obtain ⟨r, h1, h2, h3⟩ := loadProperties_multiline_stored m text delimiter verbose k
  refine ⟨r, h1, h2, ?_⟩
  rw [h3, hterm, lineValue_nil]
  simp

/-- With multiline off, for every text, the value stored under `k` is the value of the last
line of the text whose key is `k`; without such a line the entry of `k` is as before. -/
theorem loadProperties_overwrite_stored (m : PropMap) (text : Str) (delimiter : Char)
    (verbose : Bool) (k : Str) :
    ∃ r, loadProperties m (IStream.ofText text) delimiter verbose false = some r ∧ r.ret = 0 ∧
      r.propmap.find k =
        match (lineValues delimiter k (textLines text)).getLast? with
        | some val => some val
        | none => m.find k := by
  refine ⟨_, loadProperties_eq_foldl m text delimiter verbose false, rfl, ?_⟩
  simp only
  rw [foldl_loadLine_overwrite delimiter verbose (loopLines text) _ k,
    lineValues_loopLines_getLast?]

/-! ## Theorems: `ClientManager` -/

theorem stdFind_eq_none (l : List ClientSM) (v : ClientSM) : stdFind l v = none ↔ v ∉ l := by
  induction l with
  | nil => simp [stdFind]
  | cons x xs ih =>
    by_cases h : x = v
    · simp [stdFind, h]
    · simp [stdFind, h, ih, Ne.symm h]

/-- The iterator `std::find` returns for a member points at its first occurrence, and erasing
at that iterator removes exactly that occurrence. -/
theorem stdFind_of_mem (l : List ClientSM) (v : ClientSM) (h : v ∈ l) :
    ∃ pre post, l = pre ++ v :: post ∧ v ∉ pre ∧ stdFind l v = some pre.length ∧
      l.eraseIdx pre.length = pre ++ post := by
  induction l with
  | nil => simp at h
  | cons x xs ih =>
    by_cases hx : x = v
    · exact ⟨[], xs, by simp [hx], by simp, by simp [stdFind, hx], by simp⟩
    · have hxs : v ∈ xs := by
        rcases List.mem_cons.mp h with e | e
        · exact absurd e.symm hx
        · exact e
      obtain ⟨pre, post, h1, h2, h3, h4⟩ := ih hxs
      refine ⟨x :: pre, post, by simp [h1], ?_, by simp [stdFind, hx, h3], by simp [h4]⟩
      simp only [List.mem_cons, not_or]
      exact ⟨fun e => hx e.symm, h2⟩

/-- C11: for a list that contains the session, `Remove` returns normally and erases its first
occurrence: the list was `pre ++ clnt :: post` with `clnt` not in `pre` and becomes
`pre ++ post`, one element shorter, every other session in place; a session that occurred
once is no longer a member. -/
theorem ClientManager.Remove_detaches (ndebug : Bool) (cm : ClientManager) (clnt : ClientSM)
    (hmem : clnt ∈ cm.mClients) :
    (cm.Remove ndebug clnt).outcome = .returned ∧
    (∃ pre post, cm.mClients = pre ++ clnt :: post ∧ clnt ∉ pre ∧
      (cm.Remove ndebug clnt).state.mClients = pre ++ post) ∧
    (cm.Remove ndebug clnt).state.mClients = cm.mClients.erase clnt ∧
    (cm.Remove ndebug clnt).state.mClients.length + 1 = cm.mClients.length ∧
    (cm.mClients.count clnt = 1 → clnt ∉ (cm.Remove ndebug clnt).state.mClients) := by
  obtain ⟨pre, post, h1, h2, h3, h4⟩ := stdFind_of_mem cm.mClients clnt hmem
  have hres : (cm.Remove ndebug clnt).state.mClients = pre ++ post := by
    simp only [ClientManager.Remove, h3, h4]
  have hout : (cm.Remove ndebug clnt).outcome = .returned := by
    simp only [ClientManager.Remove, h3]
  refine ⟨hout, ⟨pre, post, h1, h2, hres⟩, ?_, ?_, ?_⟩
  · rw [hres, h1, List.erase_append_right _ h2, List.erase_cons_head]
  · rw [hres, h1]
    simp
    omega
  · intro hcount
    rw [hres]
    rw [h1, List.count_append, List.count_cons_self, List.count_eq_zero_of_not_mem h2] at hcount
    have hpost : post.count clnt = 0 := by omega
    simp only [List.mem_append, not_or]
    exact ⟨h2, List.count_eq_zero.mp hpost⟩

/-- Witness of C11: removing session 5 from the list 3, 5, 7, 5 leaves 3, 7, 5. -/
theorem ClientManager.Remove_detaches_witness :
    (ClientManager.Remove false { mClients := [3, 5, 7, 5] } 5).outcome = .returned ∧
    (∃ pre post, [3, 5, 7, 5] = pre ++ 5 :: post ∧ 5 ∉ pre ∧
      (ClientManager.Remove false { mClients := [3, 5, 7, 5] } 5).state.mClients = pre ++ post) ∧
    (ClientManager.Remove false { mClients := [3, 5, 7, 5] } 5).state.mClients
      = [3, 7, 5] ∧
    (ClientManager.Remove false { mClients := [3, 5, 7, 5] } 5).state.mClients.length + 1 = 4 ∧
    (List.count 5 [3, 5, 7, 5] = 1 →
      5 ∉ (ClientManager.Remove false { mClients := [3, 5, 7, 5] } 5).state.mClients) :=
  ClientManager.Remove_detaches false { mClients := [3, 5, 7, 5] } 5 (by decide)

/-- C12: `Remove` fails only on a session that is not in the list and only when assertions
are enabled: then its assertion fails; with assertions compiled out it returns normally and
the list is exactly as before; in every other case it returns normally. -/
theorem ClientManager.Remove_unregistered (ndebug : Bool) (cm : ClientManager)
    (clnt : ClientSM) :
    (clnt ∉ cm.mClients → ndebug = false → (cm.Remove ndebug clnt).outcome = .assertFailed) ∧
    (clnt ∉ cm.mClients → ndebug = true →
      (cm.Remove ndebug clnt).outcome = .returned ∧ (cm.Remove ndebug clnt).state = cm) ∧
    ((cm.Remove ndebug clnt).outcome = .assertFailed ↔ (clnt ∉ cm.mClients ∧ ndebug = false)) := by
  by_cases hmem : clnt ∈ cm.mClients
  · obtain ⟨pre, post, _, _, h3, _⟩ := stdFind_of_mem cm.mClients clnt hmem
    simp [ClientManager.Remove, h3, hmem]
  · have hnone := (stdFind_eq_none cm.mClients clnt).mpr hmem
    cases ndebug <;> simp [ClientManager.Remove, hnone, hmem]

/-- Witness of C12: session 9 is not in the list 3, 5: with assertions enabled `Remove` fails
its assertion, with assertions compiled out it returns and leaves the list as it was. -/
theorem ClientManager.Remove_unregistered_witness :
    (ClientManager.Remove false { mClients := [3, 5] } 9).outcome = .assertFailed ∧
    (ClientManager.Remove true { mClients := [3, 5] } 9).outcome = .returned ∧
    (ClientManager.Remove true { mClients := [3, 5] } 9).state = { mClients := [3, 5] } :=
  ⟨(ClientManager.Remove_unregistered false { mClients := [3, 5] } 9).1 (by decide) rfl,
   (ClientManager.Remove_unregistered true { mClients := [3, 5] } 9).2.1 (by decide) rfl⟩

/-! ## Theorems: flags and checkpointing -/

theorem toBits32_lt (x : Int) : toBits32 x < 4294967296 := by
  unfold toBits32
  omega

theorem toBits32_ofBits32 (n : Nat) (h : n < 4294967296) : toBits32 (ofBits32 n) = n := by
  unfold toBits32 ofBits32
  split_ifs <;> omega

theorem ofBits32_eq_zero (n : Nat) (h : n < 4294967296) : ofBits32 n = 0 ↔ n = 0 := by
  unfold ofBits32
  split_ifs <;> omega

theorem nat_or_and_self (a b : Nat) : (a ||| b) &&& b = b := by
  apply Nat.eq_of_testBit_eq
  intro i
  simp only [Nat.testBit_and, Nat.testBit_or]
  cases a.testBit i <;> cases b.testBit i <;> rfl

/-- A flag that has just been set tests as set. -/
theorem MetaNode.testflag_setflag (n : MetaNode) (bit : Int) (hbit : toBits32 bit ≠ 0) :
    (n.setflag bit).testflag bit = true := by
  have hor : toBits32 n.flagbits ||| toBits32 bit < 2 ^ 32 :=
    Nat.or_lt_two_pow (by simpa using toBits32_lt n.flagbits) (by simpa using toBits32_lt bit)
  have hand : (toBits32 n.flagbits ||| toBits32 bit) &&& toBits32 bit < 4294967296 := by
    rw [nat_or_and_self]
    exact toBits32_lt bit
  simp only [MetaNode.testflag, MetaNode.setflag, intAnd, intOr, bne_iff_ne, ne_eq]
  rw [toBits32_ofBits32 _ (by simpa using hor), ofBits32_eq_zero _ hand, nat_or_and_self]
  exact hbit

/-- After `markskip()` the method `skip()` returns true, and the owner id is as before. -/
theorem Meta.skip_markskip (m : Meta) : m.markskip.skip = true ∧ m.markskip.fid = m.fid :=
  ⟨MetaNode.testflag_setflag m.toMetaNode META_SKIP (by decide), rfl⟩

/-- The method `Meta::checkpoint` does not look at the SKIP flag: what it returns and what it
leaves in the stream depend on the entity through `show()` only; leaving out excluded
entities is the work of the Checkpoint Writer. -/
theorem Meta.checkpoint_ignores_skip (show_ : Entity → Str) ( EIO : Int) (e1 e2 : Entity)
    (file : OFStream) (h : show_ e1 = show_ e2) :
    (Meta.checkpoint show_ EIO e1 file).ret = (Meta.checkpoint show_ EIO e2 file).ret ∧
    (Meta.checkpoint show_ EIO e1 file).file = (Meta.checkpoint show_ EIO e2 file).file := by
  simp [Meta.checkpoint, h]

/-- The Checkpoint Writer on a stream without limit that has not failed: it writes the lines
of the entities that are not excluded, in order, counts them, and leaves the entities. -/
theorem checkpointWriter_unlimited (show_ : Entity → Str) ( EIO : Int) (es : List Entity)
    (written : Str) :
    checkpointWriter show_ EIO { written := written, room := none, eofbit := false, failed := false } es =
      { status := 0,
        lines := (es.filter fun e => !e.toMeta.skip).length,
        file := { written := written ++
                    ((es.filter fun e => !e.toMeta.skip).map fun e => show_ e ++ ['\n']).flatten,
                  room := none, eofbit := false, failed := false },
        entities := es } := by
  induction es generalizing written with
  | nil => simp [checkpointWriter]
  | cons e es ih =>
    cases hs : e.toMeta.skip with
    | true => simp [checkpointWriter, hs, ih]
    | false =>
      have hc : Meta.checkpoint show_ EIO e { written := written, room := none, eofbit := false, failed := false }
          = { ret := 0,
              file := { written := written ++ show_ e ++ ['\n'], room := none, eofbit := false, failed := false },
              self := e } := by
        simp [Meta.checkpoint, OFStream.insert, OFStream.good]
      simp [checkpointWriter, hs, hc, ih]

/-- C13: an entity on which `markskip()` was called has `skip()` true; the Checkpoint Writer
writes no line for an entity whose SKIP flag is set, whatever the stream, and leaves the
entity as it is, SKIP still set; an entity whose SKIP flag is clear is written as one line;
over a whole list exactly the entities that are not excluded are written, in order. -/
theorem checkpointWriter_excludes_skipped (show_ : Entity → Str) ( EIO : Int) :
    (∀ e : Entity, e.markskip.toMeta.skip = true) ∧
    (∀ (e : Entity) (file : OFStream), e.toMeta.skip = true →
      checkpointWriter show_ EIO file [e]
        = { status := 0, lines := 0, file := file, entities := [e] }) ∧
    (∀ (e : Entity) (written : Str), e.toMeta.skip = false →
      checkpointWriter show_ EIO { written := written, room := none, eofbit := false, failed := false } [e]
        = { status := 0, lines := 1,
            file := { written := written ++ show_ e ++ ['\n'], room := none, eofbit := false, failed := false },
            entities := [e] }) ∧
    (∀ (es : List Entity) (written : Str),
      checkpointWriter show_ EIO { written := written, room := none, eofbit := false, failed := false } es =
        { status := 0,
          lines := (es.filter fun e => !e.toMeta.skip).length,
          file := { written := written ++
                      ((es.filter fun e => !e.toMeta.skip).map fun e => show_ e ++ ['\n']).flatten,
                    room := none, eofbit := false, failed := false },
          entities := es }) := by
  refine ⟨?_, ?_, ?_, checkpointWriter_unlimited show_ EIO⟩
  · intro e
    cases e with
    | fattr a => exact (Meta.skip_markskip a.toMeta).1
    | dentry d => exact (Meta.skip_markskip d.toMeta).1
    | chunkinfo c => exact (Meta.skip_markskip c.toMeta).1
  · intro e file hs
    simp [checkpointWriter, hs]
  · intro e written hs
    rw [checkpointWriter_unlimited]
    simp [hs]

/-- Witness of C13: a file attribute marked SKIP between two entities that are not: the
writer writes the two other lines only. -/
theorem checkpointWriter_excludes_skipped_witness :
    checkpointWriter
        (fun e => match e with
          | .fattr _ => "fattr".toList
          | .dentry _ => "dentry".toList
          | .chunkinfo _ => "chunkinfo".toList) 5
        { written := [], room := none, eofbit := false, failed := false }
        [.dentry (MetaDentry.new 1 "foo".toList 2),
         (Entity.fattr (MetaFattr.new .KFS_FILE 2 3 { tv_sec := 0, tv_usec := 0 })).markskip,
         .chunkinfo (MetaChunkInfo.new 2 0 100 1)]
      = { status := 0, lines := 2,
          file := { written := "dentry\nchunkinfo\n".toList, room := none, eofbit := false, failed := false },
          entities :=
            [.dentry (MetaDentry.new 1 "foo".toList 2),
             (Entity.fattr (MetaFattr.new .KFS_FILE 2 3 { tv_sec := 0, tv_usec := 0 })).markskip,
             .chunkinfo (MetaChunkInfo.new 2 0 100 1)] } := by
  have h := (checkpointWriter_excludes_skipped
    (fun e => match e with
      | .fattr _ => "fattr".toList
      | .dentry _ => "dentry".toList
      | .chunkinfo _ => "chunkinfo".toList) 5).2.2.2
    [.dentry (MetaDentry.new 1 "foo".toList 2),
     (Entity.fattr (MetaFattr.new .KFS_FILE 2 3 { tv_sec := 0, tv_usec := 0 })).markskip,
     .chunkinfo (MetaChunkInfo.new 2 0 100 1)] []
  rw [h]
  decide

/-! ## Theorems: keys of the entities -/

/-- Counterexample to C15 as stated: the entries `foo` (id 2) and `bar` (id 3) of directory 1
have the same key, (KFS_DENTRY, 1, 0), and are not the same logical entity. -/
theorem dentries_share_key :
    (Entity.dentry (MetaDentry.new 1 "foo".toList 2)).key
      = (Entity.dentry (MetaDentry.new 1 "bar".toList 3)).key ∧
    (Entity.dentry (MetaDentry.new 1 "foo".toList 2)).key
      = { kind := .KFS_DENTRY, kdata1 := 1, kdata2 := 0 } ∧
    ¬ SameLogicalEntity (Entity.dentry (MetaDentry.new 1 "foo".toList 2))
        (Entity.dentry (MetaDentry.new 1 "bar".toList 3)) := by
  refine ⟨rfl, rfl, ?_⟩
  intro h
  exact absurd h.1 (by decide)

/-- C15 (amended): two entities whose keys have the same kind, primary id and secondary id
are of the same variant; two file attributes then have the same owner id, two chunk records
the same owning file and the same offset, and two directory entries the same parent
directory; so, except for directory entries, they are the same logical entity. -/
theorem equal_keys_same_entity (e1 e2 : Entity) (hkey : e1.key = e2.key) :
    KeyMates e1 e2 ∧ ((∀ d, e1 ≠ .dentry d) → SameLogicalEntity e1 e2) := by
  cases e1 <;> cases e2 <;>
    simp [Entity.key, MetaFattr.key, MetaDentry.key, MetaChunkInfo.key, Key.mk2, Key.mk3,
      KeyMates, SameLogicalEntity] at hkey ⊢
  · exact hkey
  · exact hkey
  · exact ⟨hkey, hkey.1⟩

/-- Witness of C15 (amended): two chunk records of file 2 at offset 0, with different chunk
ids and versions. -/
theorem equal_keys_same_entity_witness :
    KeyMates (.chunkinfo (MetaChunkInfo.new 2 0 100 1)) (.chunkinfo (MetaChunkInfo.new 2 0 101 2)) ∧
    ((∀ d, Entity.chunkinfo (MetaChunkInfo.new 2 0 100 1) ≠ .dentry d) →
      SameLogicalEntity (.chunkinfo (MetaChunkInfo.new 2 0 100 1))
        (.chunkinfo (MetaChunkInfo.new 2 0 101 2))) :=
  equal_keys_same_entity (.chunkinfo (MetaChunkInfo.new 2 0 100 1))
    (.chunkinfo (MetaChunkInfo.new 2 0 101 2)) rfl

/-- C16: a file attribute with id `i` has key (KFS_FATTR, i, 0); a directory entry with
parent `p` has key (KFS_DENTRY, p, 0), whatever its name and its own id, so all entries of
one directory have the same key; a chunk record of file `f` at offset `o` has key
(KFS_CHUNKINFO, f, o), whatever its chunk id and version. -/
theorem key_per_variant :
    (∀ (t : FileType) (i n : Int) (now : timeval),
      (MetaFattr.new t i n now).key = { kind := .KFS_FATTR, kdata1 := i, kdata2 := 0 }) ∧
    (∀ (t : FileType) (i : Int) (mt ct crt : timeval) (c n : Int),
      (MetaFattr.newFull t i mt ct crt c n).key
        = { kind := .KFS_FATTR, kdata1 := i, kdata2 := 0 }) ∧
    (∀ a : MetaFattr, a.key = { kind := .KFS_FATTR, kdata1 := a.toMeta.id, kdata2 := 0 }) ∧
    (∀ (p : Int) (fname : Str) (myID : Int),
      (MetaDentry.new p fname myID).key = { kind := .KFS_DENTRY, kdata1 := p, kdata2 := 0 }) ∧
    (∀ d : MetaDentry, d.key = { kind := .KFS_DENTRY, kdata1 := d.dir, kdata2 := 0 }) ∧
    (∀ d1 d2 : MetaDentry, d1.dir = d2.dir → d1.key = d2.key) ∧
    (∀ f o id v : Int,
      (MetaChunkInfo.new f o id v).key = { kind := .KFS_CHUNKINFO, kdata1 := f, kdata2 := o }) ∧
    (∀ c : MetaChunkInfo,
      c.key = { kind := .KFS_CHUNKINFO, kdata1 := c.toMeta.id, kdata2 := c.offset }) := by
  refine ⟨fun _ _ _ _ => rfl, fun _ _ _ _ _ _ _ => rfl, fun _ => rfl, fun _ _ _ => rfl,
    fun _ => rfl, ?_, fun _ _ _ _ => rfl, fun _ => rfl⟩
  intro d1 d2 h
  simp [MetaDentry.key, h]

/-! ## Theorems: unknown events of the replication monitor -/

theorem ChunkReplicator.HandleEvent_unknown (ec : EventCodes) (ndebug : Bool)
    (s : ChunkReplicator) (code : Int) (data : Nat) (h1 : code ≠ ec.EVENT_CMD_DONE)
    (h2 : code ≠ ec.EVENT_TIMEOUT) :
    HandleEvent ec ndebug s code data =
      { outcome := if ndebug then .returned 0 else .assertFailed, state := s, submitted := [] } := by
  cases ndebug <;> simp [HandleEvent, h1, h2]

/-- Counterexample to C17 as stated: with assertions compiled out, the event code 0, which is
neither of the two codes, makes `HandleEvent` return 0 normally. -/
theorem ChunkReplicator.unknown_event_returns_when_ndebug :
    (0 : Int) ≠ EventCodes.sample.EVENT_CMD_DONE ∧ (0 : Int) ≠ EventCodes.sample.EVENT_TIMEOUT ∧
    (HandleEvent EventCodes.sample true (ChunkReplicator.new 1) 0 0).outcome = .returned 0 ∧
    (HandleEvent EventCodes.sample true (ChunkReplicator.new 1) 0 0).outcome ≠ .assertFailed := by
  decide

/-- C17 (amended): for every state and every event code other than `EVENT_CMD_DONE` and
`EVENT_TIMEOUT`, `HandleEvent` fails its assertion when assertions are enabled and returns 0
when they are compiled out; in both cases it submits no request and changes neither
`mInProgress` nor the sequence counter (the state is as before). -/
theorem ChunkReplicator.unknown_event_fatal (ec : EventCodes) (ndebug : Bool)
    (s : ChunkReplicator) (code : Int) (data : Nat) (h1 : code ≠ ec.EVENT_CMD_DONE)
    (h2 : code ≠ ec.EVENT_TIMEOUT) :
    (ndebug = false → (HandleEvent ec ndebug s code data).outcome = .assertFailed) ∧
    (ndebug = true → (HandleEvent ec ndebug s code data).outcome = .returned 0) ∧
    (HandleEvent ec ndebug s code data).submitted = [] ∧
    (HandleEvent ec ndebug s code data).state = s ∧
    (HandleEvent ec ndebug s code data).state.mInProgress = s.mInProgress ∧
    (HandleEvent ec ndebug s code data).state.seqNum = s.seqNum := by
  rw [ChunkReplicator.HandleEvent_unknown ec ndebug s code data h1 h2]
  cases ndebug <;> simp

/-- Witness of C17 (amended): the event code 0 with assertions enabled, on a fresh monitor. -/
theorem ChunkReplicator.unknown_event_fatal_witness :
    (HandleEvent EventCodes.sample false (ChunkReplicator.new 1) 0 0).outcome = .assertFailed ∧
    (HandleEvent EventCodes.sample false (ChunkReplicator.new 1) 0 0).submitted = [] ∧
    (HandleEvent EventCodes.sample false (ChunkReplicator.new 1) 0 0).state
      = ChunkReplicator.new 1 :=
  have h := ChunkReplicator.unknown_event_fatal EventCodes.sample false (ChunkReplicator.new 1)
    0 0 (by decide) (by decide)
  ⟨h.1 rfl, h.2.2.1, h.2.2.2.1⟩

/-! ## Theorems: comparison of keys -/

theorem MetaType.code_inj (a b : MetaType) : a.code = b.code ↔ a = b := by
  cases a <;> cases b <;> simp [MetaType.code]

/-- The comparison of keys with the kinds replaced by their codes. -/
theorem Key.compare_eq (a b : Key) :
    a.compare b =
      if a.kind.code ≠ b.kind.code then (if a.kind.code < b.kind.code then -1 else 1)
      else if a.kdata1 ≠ b.kdata1 then (if a.kdata1 < b.kdata1 then -1 else 1)
      else if a.kdata2 ≠ b.kdata2 ∧ a.kdata2 ≠ -1 ∧ b.kdata2 ≠ -1 then
        (if a.kdata2 < b.kdata2 then -1 else 1)
      else 0 := by
  simp only [Key.compare, Key.MATCH_ANY, ne_eq, MetaType.code_inj]

theorem Key.opLt_iff (a b : Key) : a.opLt b = true ↔ a.compare b < 0 := by
  simp [Key.opLt]

theorem Key.opEq_iff (a b : Key) : a.opEq b = true ↔ a.compare b = 0 := by
  simp [Key.opEq]

theorem Key.compare_antisymm (a b : Key) : b.compare a = -a.compare b := by
  rw [Key.compare_eq, Key.compare_eq]
  split_ifs <;> omega

theorem Key.compare_neg_iff (a b : Key) :
    a.compare b < 0 ↔
      (a.kind.code < b.kind.code ∨ (a.kind.code = b.kind.code ∧ a.kdata1 < b.kdata1) ∨
        (a.kind.code = b.kind.code ∧ a.kdata1 = b.kdata1 ∧ a.kdata2 < b.kdata2 ∧
          a.kdata2 ≠ -1 ∧ b.kdata2 ≠ -1)) := by
  rw [Key.compare_eq]
  split_ifs <;> omega

theorem Key.compare_zero_iff (a b : Key) :
    a.compare b = 0 ↔
      (a.kind.code = b.kind.code ∧ a.kdata1 = b.kdata1 ∧
        (a.kdata2 = b.kdata2 ∨ a.kdata2 = -1 ∨ b.kdata2 = -1)) := by
  rw [Key.compare_eq]
  split_ifs <;> constructor <;> intro h <;> first | omega | exact h.elim

theorem Key.compare_lt_trans (a b c : Key) (h1 : a.compare b < 0) (h2 : b.compare c < 0) :
    a.compare c < 0 := by
  rw [Key.compare_neg_iff] at h1 h2 ⊢
  omega

theorem Key.compare_eq_trans (a b c : Key) (hb : b.kdata2 ≠ Key.MATCH_ANY)
    (h1 : a.compare b = 0) (h2 : b.compare c = 0) : a.compare c = 0 := by
  simp only [Key.MATCH_ANY] at hb
  rw [Key.compare_zero_iff] at h1 h2 ⊢
  omega

theorem Key.compare_eq_zero_iff (a b : Key) (ha : a.kdata2 ≠ Key.MATCH_ANY)
    (hb : b.kdata2 ≠ Key.MATCH_ANY) : a.compare b = 0 ↔ a = b := by
  simp only [Key.MATCH_ANY] at ha hb
  constructor
  · intro h
    rw [Key.compare_zero_iff] at h
    have hk : a.kind.code = b.kind.code := h.1
    have h1 : a.kdata1 = b.kdata1 := h.2.1
    have h2 : a.kdata2 = b.kdata2 := by omega
    obtain ⟨ak, a1, a2⟩ := a
    obtain ⟨bk, b1, b2⟩ := b
    simp only [Key.mk.injEq]
    exact ⟨(MetaType.code_inj _ _).mp hk, h1, h2⟩
  · intro h
    subst h
    simp [Key.compare]

/-- Counterexample to C19 as stated: with the wildcard among the keys `==` is not transitive,
so it is not an equivalence relation and the comparison is not a total order: the keys
(KFS_DENTRY, 1, 5) and (KFS_DENTRY, 1, 7) both equal (KFS_DENTRY, 1, MATCH_ANY), and the first
is less than the second. -/
theorem Key.wildcard_eq_not_transitive :
    (Key.mk3 .KFS_DENTRY 1 5).opEq (Key.mk3 .KFS_DENTRY 1 Key.MATCH_ANY) = true ∧
    (Key.mk3 .KFS_DENTRY 1 Key.MATCH_ANY).opEq (Key.mk3 .KFS_DENTRY 1 7) = true ∧
    (Key.mk3 .KFS_DENTRY 1 5).opEq (Key.mk3 .KFS_DENTRY 1 7) = false ∧
    (Key.mk3 .KFS_DENTRY 1 5).opLt (Key.mk3 .KFS_DENTRY 1 7) = true := by
  decide

/-- C19 (amended): keys compare first by kind, then by primary id, then by secondary id with
the wildcard matching any secondary id; for all keys exactly one of `a < b`, `a == b`,
`b < a` holds, `<` is transitive, `==` is reflexive and symmetric, and `a != b` is the
negation of `a == b`; `==` is transitive through a key whose secondary id is not the
wildcard, and on keys without the wildcard `a == b` holds exactly when the three fields are
equal, so that there the comparison is a total order. -/
theorem Key.compare_order (a b c : Key) :
    ((a.opLt b = true ∧ a.opEq b = false ∧ b.opLt a = false) ∨
     (a.opLt b = false ∧ a.opEq b = true ∧ b.opLt a = false) ∨
     (a.opLt b = false ∧ a.opEq b = false ∧ b.opLt a = true)) ∧
    (a.opLt b = true → b.opLt c = true → a.opLt c = true) ∧
    a.opEq a = true ∧
    (a.opEq b = true → b.opEq a = true) ∧
    a.opNe b = !a.opEq b ∧
    (b.kdata2 ≠ Key.MATCH_ANY → a.opEq b = true → b.opEq c = true → a.opEq c = true) ∧
    (a.kdata2 ≠ Key.MATCH_ANY → b.kdata2 ≠ Key.MATCH_ANY → (a.opEq b = true ↔ a = b)) ∧
    (a.kind ≠ b.kind → (a.opLt b = true ↔ a.kind.code < b.kind.code)) ∧
    (a.kind = b.kind → a.kdata1 ≠ b.kdata1 → (a.opLt b = true ↔ a.kdata1 < b.kdata1)) ∧
    (a.kind = b.kind → a.kdata1 = b.kdata1 →
      (a.opLt b = true ↔
        (a.kdata2 < b.kdata2 ∧ a.kdata2 ≠ Key.MATCH_ANY ∧ b.kdata2 ≠ Key.MATCH_ANY))) := by
  have hanti := Key.compare_antisymm a b
  refine ⟨?_, ?_, ?_, ?_, ?_, ?_, ?_, ?_, ?_, ?_⟩
  · simp only [Key.opLt, Key.opEq, decide_eq_true_eq, decide_eq_false_iff_not, hanti]
    omega
  · simp only [Key.opLt_iff]
    exact Key.compare_lt_trans a b c
  · simp [Key.opEq, Key.compare]
  · simp only [Key.opEq_iff, hanti]
    omega
  · simp [Key.opNe, Key.opEq]
  · simp only [Key.opEq_iff]
    exact Key.compare_eq_trans a b c
  · intro ha hb
    rw [Key.opEq_iff]
    exact Key.compare_eq_zero_iff a b ha hb
  · intro hk
    have hc : a.kind.code ≠ b.kind.code := fun e => hk ((MetaType.code_inj _ _).mp e)
    rw [Key.opLt_iff, Key.compare_neg_iff]
    omega
  · intro hk h1
    have hc : a.kind.code = b.kind.code := by rw [hk]
    rw [Key.opLt_iff, Key.compare_neg_iff]
    omega
  · intro hk h1
    have hc : a.kind.code = b.kind.code := by rw [hk]
    simp only [Key.MATCH_ANY]
    rw [Key.opLt_iff, Key.compare_neg_iff]
    omega

/-! ## Theorems: loading a properties file -/

/-- C18: `loadProperties(fileName, ...)` always returns; when the file cannot be opened it
returns -1 and leaves the map unchanged; it returns 0 exactly when the file was opened, and
then the map (and the text printed) is the one the stream overload leaves on the contents of
the file. -/
theorem loadPropertiesFile_result (openFile : Str → Option Str) (m : PropMap) (fileName : Str)
    (delimiter : Char) (verbose multiline : Bool) :
    ∃ r, loadPropertiesFile openFile m fileName delimiter verbose multiline = some r ∧
      (openFile fileName = none → r.ret = -1 ∧ r.propmap = m) ∧
      (r.ret = 0 ↔ ∃ text, openFile fileName = some text) ∧
      (∀ text, openFile fileName = some text →
        ∃ r1, loadProperties m (IStream.ofText text) delimiter verbose multiline = some r1 ∧
          r.ret = 0 ∧ r.propmap = r1.propmap ∧ r.out = r1.out) := by
  cases hopen : openFile fileName with
  | none =>
    have hr : loadPropertiesFile openFile m fileName delimiter verbose multiline
        = some { ret := -1, propmap := m, out := [],
                 err := "Properties::loadProperties() Could not open the file:".toList
                   ++ fileName ++ ['\n'] } := by
      simp only [loadPropertiesFile, hopen]
    refine ⟨_, hr, fun _ => ⟨rfl, rfl⟩, ?_, ?_⟩
    · simp
    · intro text h
      exact absurd h (by simp)
  | some text =>
    obtain ⟨r1, hr1, _⟩ := loadProperties_returns m (IStream.ofText text) delimiter verbose multiline
    refine ⟨{ ret := 0, propmap := r1.propmap, out := r1.out, err := [] },
      by simp [loadPropertiesFile, hopen, hr1], fun h => absurd h (by simp), ?_, ?_⟩
    · simp
    · intro text1 h
      have ht : text = text1 := by simpa using h
      subst ht
      exact ⟨r1, hr1, rfl, rfl, rfl⟩

/-- Witness of C18: a file system that holds only the file `kfs.prp` with the text `a = 1`;
loading `kfs.prp` returns 0 and stores `1` under `a`, as the stream overload does on the
text. -/
theorem loadPropertiesFile_result_witness :
    ∃ r, loadPropertiesFile
        (fun name => if name = "kfs.prp".toList then some "a = 1\n".toList else none)
        [] "kfs.prp".toList '=' false false = some r ∧
      r.ret = 0 ∧ r.propmap = [("a".toList, "1".toList)] := by
  obtain ⟨r, hr, _, _, h⟩ := loadPropertiesFile_result
    (fun name => if name = "kfs.prp".toList then some "a = 1\n".toList else none)
    [] "kfs.prp".toList '=' false false
  obtain ⟨r1, hr1, h0, hmap, _⟩ := h "a = 1\n".toList (by decide)
  have hr2 : loadProperties [] (IStream.ofText "a = 1\n".toList) '=' false false
      = some { ret := 0, propmap := [("a".toList, "1".toList)], out := [] } := by decide
  rw [hr2] at hr1
  have hr3 : r1 = { ret := 0, propmap := [("a".toList, "1".toList)], out := [] } := by
    simpa using hr1.symm
  exact ⟨r, hr, h0, by rw [hmap, hr3]⟩

/-! ## Theorems: `removeLTSpaces` and the reference trim -/

theorem isTrimChar_iff (c : Char) : isTrimChar c = true ↔ c ∈ delims := by
  simp [isTrimChar, delims, or_assoc]

theorem dropWhile_append_of_all (p : Char → Bool) (a l : Str) (h : ∀ c ∈ a, p c = true) :
    (a ++ l).dropWhile p = l.dropWhile p := by
  induction a with
  | nil => rfl
  | cons x xs ih =>
    have hx : p x = true := h x (List.mem_cons_self _ _)
    simp only [List.cons_append, List.dropWhile_cons, hx, if_true]
    exact ih (fun c hc => h c (List.mem_cons_of_mem _ hc))

theorem dropWhile_of_head (p : Char → Bool) (l : Str) (h : ∀ c, l.head? = some c → p c = false) :
    l.dropWhile p = l := by
  cases l with
  | nil => rfl
  | cons x xs => simp [List.dropWhile_cons, h x rfl]

/-- A text has only one trim, the reference trim. -/
theorem IsTrimOf.eq_referenceTrim (s t : Str) (h : IsTrimOf s t) : t = referenceTrim s := by
  obtain ⟨a, b, hs, ha, hb, hhead, hlast⟩ := h
  have ha1 : ∀ c ∈ a, isTrimChar c = true := fun c hc => (isTrimChar_iff c).mpr (ha c hc)
  have hb1 : ∀ c ∈ b.reverse, isTrimChar c = true :=
    fun c hc => (isTrimChar_iff c).mpr (hb c (List.mem_reverse.mp hc))
  have hhead1 : ∀ c, t.head? = some c → isTrimChar c = false := by
    intro c hc
    have := hhead c hc
    rw [← isTrimChar_iff] at this
    simpa using this
  have hlast1 : ∀ c, t.reverse.head? = some c → isTrimChar c = false := by
    intro c hc
    rw [List.head?_reverse] at hc
    have := hlast c hc
    rw [← isTrimChar_iff] at this
    simpa using this
  unfold referenceTrim
  rw [hs, List.append_assoc, dropWhile_append_of_all _ a _ ha1]
  cases t with
  | nil =>
    have hb2 : ∀ c ∈ b, isTrimChar c = true := fun c hc => (isTrimChar_iff c).mpr (hb c hc)
    have : b.dropWhile isTrimChar = [] := by
      have := dropWhile_append_of_all isTrimChar b [] hb2
      simpa using this
    simp [this]
  | cons x xs =>
    rw [dropWhile_of_head isTrimChar ((x :: xs) ++ b) (by
      intro c hc
      exact hhead1 c (by simpa using hc))]
    rw [List.reverse_append, dropWhile_append_of_all _ _ _ hb1,
      dropWhile_of_head isTrimChar _ hlast1, List.reverse_reverse]

/-- A text that neither begins nor ends with one of the four characters is its own trim. -/
theorem IsTrimOf.self (t : Str) (hhead : ∀ c, t.head? = some c → c ∉ delims)
    (hlast : ∀ c, t.getLast? = some c → c ∉ delims) : IsTrimOf t t :=
  ⟨[], [], by simp, by simp, by simp, hhead, hlast⟩

/-- C20: `removeLTSpaces` equals the reference trim: its result is the part of `s` left when
the leading and trailing space, tab, CR and LF characters are cut off (`s = a ++ t ++ b` with
`a`, `b` made of those characters and `t` neither beginning nor ending with one), and it is
the only such part; it is empty when `s` has only such characters; it never begins or ends
with one of them; and trimming twice is trimming once. -/
theorem removeLTSpaces_eq_referenceTrim (s : Str) :
    removeLTSpaces s = referenceTrim s ∧
    IsTrimOf s (removeLTSpaces s) ∧
    (∀ t, IsTrimOf s t → t = removeLTSpaces s) ∧
    ((∀ c ∈ s, c ∈ delims) → removeLTSpaces s = []) ∧
    (∀ c, (removeLTSpaces s).head? = some c → c ∉ delims) ∧
    (∀ c, (removeLTSpaces s).getLast? = some c → c ∉ delims) ∧
    removeLTSpaces (removeLTSpaces s) = removeLTSpaces s := by
  have htrim := removeLTSpaces_isTrimOf s
  have heq := IsTrimOf.eq_referenceTrim s _ htrim
  obtain ⟨a, b, hs, _, _, hhead, hlast⟩ := htrim
  refine ⟨heq, removeLTSpaces_isTrimOf s, ?_, ?_, hhead, hlast, ?_⟩
  · intro t ht
    rw [heq]
    exact IsTrimOf.eq_referenceTrim s t ht
  · intro hall
    cases hr : removeLTSpaces s with
    | nil => rfl
    | cons x xs =>
      have hx : x ∈ s := by
        rw [hs, hr]
        simp
      exact absurd (hall x hx) (hhead x (by rw [hr]; rfl))
  · have h1 := IsTrimOf.eq_referenceTrim _ _ (removeLTSpaces_isTrimOf (removeLTSpaces s))
    have h2 := IsTrimOf.eq_referenceTrim _ _ (IsTrimOf.self (removeLTSpaces s) hhead hlast)
    rw [h1, ← h2]

/-! ## Theorems: sequence numbers of the replication checks -/

theorem wrapInt64_inRange (x : Int) : INT64_MIN ≤ wrapInt64 x ∧ wrapInt64 x ≤ INT64_MAX := by
  unfold wrapInt64 INT64_MIN INT64_MAX
  omega

theorem wrapInt64_wrapInt64_add (x y : Int) : wrapInt64 (wrapInt64 x + y) = wrapInt64 (x + y) := by
  unfold wrapInt64
  omega

/-- The requests submitted over any sequence of events carry the successive values of the
64-bit sequence counter: the first the value the counter had, each later one the next value,
and nothing else is submitted. -/
theorem ChunkReplicator.runSubmitted_counter (ec : EventCodes) (ndebug : Bool)
    (es : List (Int × Nat)) (s : ChunkReplicator) (hlo : INT64_MIN ≤ s.seqNum)
    (hhi : s.seqNum ≤ INT64_MAX) :
    ∃ n, runSubmitted ec ndebug s es
      = (List.range n).map (fun i : Nat => ({ opSeqno := wrapInt64 (s.seqNum + i) } :
          MetaChunkReplicationCheck)) := by
  induction es generalizing s with
  | nil => exact ⟨0, rfl⟩
  | cons e es ih =>
    simp only [runSubmitted]
    by_cases h1 : e.1 = ec.EVENT_CMD_DONE
    · rw [h1, HandleEvent_cmd_done]
      exact ih { s with mInProgress := false } hlo hhi
    · by_cases h2 : e.1 = ec.EVENT_TIMEOUT
      · cases hp : s.mInProgress with
        | true =>
          rw [h2, HandleEvent_timeout_busy ec ndebug s e.2 hp]
          exact ih s hlo hhi
        | false =>
          rw [h2, HandleEvent_timeout_idle ec ndebug s e.2 hp]
          obtain ⟨hlo1, hhi1⟩ := wrapInt64_inRange (s.seqNum + 1)
          obtain ⟨n, hn⟩ := ih ⟨true, ⟨s.seqNum⟩, wrapInt64 (s.seqNum + 1)⟩ hlo1 hhi1
          refine ⟨n + 1, ?_⟩
          simp only [hn, List.range_succ_eq_map, List.map_cons, List.map_map,
            List.singleton_append]
          congr 1
          · simp [wrapInt64_of_inRange s.seqNum hlo hhi]
          · apply List.map_congr_left
            intro i _
            simp only [Function.comp, wrapInt64_wrapInt64_add, Nat.succ_eq_add_one]
            congr 2
            push_cast
            ring
      · rw [ChunkReplicator.HandleEvent_unknown ec ndebug s e.1 e.2 h1 h2]
        cases ndebug with
        | true => simpa using ih s hlo hhi
        | false => exact ⟨0, by simp⟩

/-- The requests submitted over `n` rounds of timer and completion, from an idle monitor. -/
theorem ChunkReplicator.runSubmitted_checkRounds (ec : EventCodes) (ndebug : Bool) (n : Nat)
    (s : ChunkReplicator) (hidle : s.mInProgress = false) (hlo : INT64_MIN ≤ s.seqNum)
    (hhi : s.seqNum ≤ INT64_MAX) :
    runSubmitted ec ndebug s (checkRounds ec n)
      = (List.range n).map (fun i : Nat => ({ opSeqno := wrapInt64 (s.seqNum + i) } :
          MetaChunkReplicationCheck)) := by
  induction n generalizing s with
  | zero => rfl
  | succ n ih =>
    obtain ⟨hlo1, hhi1⟩ := wrapInt64_inRange (s.seqNum + 1)
    simp only [checkRounds, runSubmitted]
    rw [HandleEvent_timeout_idle ec ndebug s 0 hidle]
    simp only [HandleEvent_cmd_done]
    rw [ih _ rfl hlo1 hhi1]
    simp only [List.range_succ_eq_map, List.map_cons, List.map_map, List.singleton_append,
      List.append_nil, List.nil_append]
    congr 1
    · simp [wrapInt64_of_inRange s.seqNum hlo hhi]
    · apply List.map_congr_left
      intro i _
      simp only [Function.comp, wrapInt64_wrapInt64_add, Nat.succ_eq_add_one]
      congr 2
      push_cast
      ring

/-- Counterexample to C21 as stated: after 2^63 rounds of timer and completion on a monitor
started with the counter at 1, the request submitted as number 2^63 carries `opSeqno = -2^63`,
not 2^63: the 64-bit counter has left its range. -/
theorem ChunkReplicator.seqno_wraps_after_2_pow_63 :
    (runSubmitted EventCodes.sample false (ChunkReplicator.new 1)
        (checkRounds EventCodes.sample 9223372036854775808))[9223372036854775807]?
      = some { opSeqno := INT64_MIN } ∧
    INT64_MIN ≠ 9223372036854775808 := by
  constructor
  · rw [ChunkReplicator.runSubmitted_checkRounds EventCodes.sample false 9223372036854775808
      (ChunkReplicator.new 1) rfl (by decide) (by decide), List.getElem?_map,
      List.getElem?_range (by decide)]
    decide
  · decide

/-- C21 (amended): on a monitor started with the sequence counter at 1, whatever events are
fed to `HandleEvent`, the request submitted as number `k + 1` carries `opSeqno = k + 1` as
long as `k + 1` is at most the largest 64-bit value; so up to there the sequence numbers
submitted are strictly increasing and none is used twice; and a timer firing that is a no-op
submits nothing and leaves the sequence counter as it was. -/
theorem ChunkReplicator.seqno_fresh (ec : EventCodes) (ndebug : Bool) (es : List (Int × Nat))
    (k : Nat) (hk : k < (runSubmitted ec ndebug (ChunkReplicator.new 1) es).length)
    (hmax : (k : Int) + 1 ≤ INT64_MAX) :
    (runSubmitted ec ndebug (ChunkReplicator.new 1) es)[k]? = some { opSeqno := (k : Int) + 1 } ∧
    (∀ j, j < k →
      (runSubmitted ec ndebug (ChunkReplicator.new 1) es)[j]?
        = some { opSeqno := (j : Int) + 1 }) ∧
    (∀ i j a b, i < j → j ≤ k →
      (runSubmitted ec ndebug (ChunkReplicator.new 1) es)[i]? = some a →
      (runSubmitted ec ndebug (ChunkReplicator.new 1) es)[j]? = some b →
      a.opSeqno < b.opSeqno) ∧
    (∀ (s : ChunkReplicator) (data : Nat), s.mInProgress = true →
      (HandleEvent ec ndebug s ec.EVENT_TIMEOUT data).submitted = [] ∧
      (HandleEvent ec ndebug s ec.EVENT_TIMEOUT data).state.seqNum = s.seqNum) := by
  obtain ⟨n, hn⟩ := ChunkReplicator.runSubmitted_counter ec ndebug es (ChunkReplicator.new 1)
    (by decide) (by decide)
  have hlen : (runSubmitted ec ndebug (ChunkReplicator.new 1) es).length = n := by
    rw [hn]
    simp
  have hat : ∀ j, j ≤ k →
      (runSubmitted ec ndebug (ChunkReplicator.new 1) es)[j]?
        = some { opSeqno := (j : Int) + 1 } := by
    intro j hj
    have hjn : j < n := by omega
    rw [hn, List.getElem?_map, List.getElem?_range hjn]
    have hw : wrapInt64 ((ChunkReplicator.new 1).seqNum + (j : Int)) = (j : Int) + 1 := by
      have : (ChunkReplicator.new 1).seqNum = 1 := rfl
      rw [this, wrapInt64_of_inRange _ (by unfold INT64_MIN; omega) (by omega)]
      omega
    simp [hw]
  refine ⟨hat k (le_refl k), fun j hj => hat j (le_of_lt hj), ?_, ?_⟩
  · intro i j a b hij hjk ha hb
    rw [hat i (by omega)] at ha
    rw [hat j hjk] at hb
    have ha1 : a.opSeqno = (i : Int) + 1 := by
      rw [← Option.some.inj ha]
    have hb1 : b.opSeqno = (j : Int) + 1 := by
      rw [← Option.some.inj hb]
    omega
  · intro s data hbusy
    rw [HandleEvent_timeout_busy ec ndebug s data hbusy]
    exact ⟨rfl, rfl⟩

/-- Witness of C21 (amended): two timer firings, a completion and a third timer firing on a
fresh monitor submit two requests, the second with `opSeqno = 2`. -/
theorem ChunkReplicator.seqno_fresh_witness :
    (runSubmitted EventCodes.sample false (ChunkReplicator.new 1)
        [(9, 0), (9, 0), (8, 0), (9, 0)])[1]? = some { opSeqno := 2 } :=
  (ChunkReplicator.seqno_fresh EventCodes.sample false [(9, 0), (9, 0), (8, 0), (9, 0)] 1
    (by decide) (by decide)).1

/-! ## Theorems: the lifecycle flags -/

theorem nat_and_two_pow_eq_zero (x j : Nat) : x &&& 2 ^ j = 0 ↔ x.testBit j = false := by
  constructor
  · intro h
    have h1 := congrArg (fun y => Nat.testBit y j) h
    simpa [Nat.testBit_and, Nat.testBit_two_pow] using h1
  · intro h
    apply Nat.eq_of_testBit_eq
    intro i
    simp only [Nat.testBit_and, Nat.testBit_two_pow, Nat.zero_testBit]
    by_cases hij : j = i
    · subst hij
      simp [h]
    · simp [hij]

/-- Each flag constant is a single bit, one of the five lowest. -/
theorem flagConstants_bit (b : Int) (hb : b ∈ flagConstants) :
    ∃ j, j < 5 ∧ toBits32 b = 2 ^ j := by
  simp only [flagConstants, List.mem_cons, List.mem_singleton, List.not_mem_nil, or_false] at hb
  rcases hb with h | h | h | h | h
  · exact ⟨0, by decide, by rw [h]; decide⟩
  · exact ⟨1, by decide, by rw [h]; decide⟩
  · exact ⟨2, by decide, by rw [h]; decide⟩
  · exact ⟨3, by decide, by rw [h]; decide⟩
  · exact ⟨4, by decide, by rw [h]; decide⟩

/-- Two flag constants with the same bit are the same constant. -/
theorem flagConstants_bit_inj (b c : Int) (hb : b ∈ flagConstants) (hc : c ∈ flagConstants)
    (h : toBits32 b = toBits32 c) : b = c := by
  simp only [flagConstants, List.mem_cons, List.mem_singleton, List.not_mem_nil, or_false]
    at hb hc
  rcases hb with rfl | rfl | rfl | rfl | rfl <;> rcases hc with rfl | rfl | rfl | rfl | rfl <;>
    first | rfl | exact absurd h (by decide)

/-- Testing a single-bit flag is testing that bit of the pattern of `flagbits`. -/
theorem MetaNode.testflag_eq_testBit (n : MetaNode) (bit : Int) (j : Nat)
    (hj : toBits32 bit = 2 ^ j) : n.testflag bit = (toBits32 n.flagbits).testBit j := by
  have hlt : toBits32 n.flagbits &&& toBits32 bit < 4294967296 := by
    have := Nat.and_lt_two_pow (toBits32 n.flagbits) (n := 32) (by simpa using toBits32_lt bit)
    simpa using this
  cases hbit : (toBits32 n.flagbits).testBit j with
  | false =>
    have h0 := (nat_and_two_pow_eq_zero _ _).mpr hbit
    simp [MetaNode.testflag, intAnd, hj, h0, ofBits32]
  | true =>
    have h0 : toBits32 n.flagbits &&& 2 ^ j ≠ 0 := by
      intro e
      rw [nat_and_two_pow_eq_zero] at e
      rw [e] at hbit
      exact Bool.noConfusion hbit
    rw [hj] at hlt
    have h1 : ofBits32 (toBits32 n.flagbits &&& 2 ^ j) ≠ 0 :=
      fun e => h0 ((ofBits32_eq_zero _ hlt).mp e)
    simp [MetaNode.testflag, intAnd, hj, h1]

theorem MetaNode.toBits32_setflag (n : MetaNode) (bit : Int) :
    toBits32 (n.setflag bit).flagbits = toBits32 n.flagbits ||| toBits32 bit := by
  have hor : toBits32 n.flagbits ||| toBits32 bit < 2 ^ 32 :=
    Nat.or_lt_two_pow (by simpa using toBits32_lt n.flagbits) (by simpa using toBits32_lt bit)
  simp only [MetaNode.setflag, intOr]
  exact toBits32_ofBits32 _ (by simpa using hor)

theorem MetaNode.toBits32_clearflag (n : MetaNode) (bit : Int) :
    toBits32 (n.clearflag bit).flagbits
      = toBits32 n.flagbits &&& (4294967295 - toBits32 bit) := by
  have hnot : toBits32 (intNot bit) = 4294967295 - toBits32 bit := by
    simp only [intNot]
    exact toBits32_ofBits32 _ (by omega)
  have hand : toBits32 n.flagbits &&& (4294967295 - toBits32 bit) < 4294967296 := by
    have := Nat.and_lt_two_pow (toBits32 n.flagbits) (n := 32)
      (y := 4294967295 - toBits32 bit) (by norm_num; omega)
    simpa using this
  simp only [MetaNode.clearflag, intAnd, hnot]
  exact toBits32_ofBits32 _ hand

/-- The bits of the mask `~bit` for a flag that is bit `j`. -/
theorem testBit_mask (j i : Nat) (hj : j < 32) :
    (4294967295 - 2 ^ j).testBit i = (decide (i < 32) && !decide (j = i)) := by
  have hlt : 2 ^ j < 2 ^ 32 := Nat.pow_lt_pow_right (by decide) hj
  have h := Nat.testBit_two_pow_sub_succ hlt i
  rw [Nat.testBit_two_pow] at h
  have he : 4294967295 - 2 ^ j = 2 ^ 32 - (2 ^ j + 1) := by
    norm_num
    omega
  rw [he, h]

theorem MetaNode.setflag_setflag (n : MetaNode) (bit : Int) :
    (n.setflag bit).setflag bit = n.setflag bit := by
  have h := MetaNode.toBits32_setflag n bit
  simp only [MetaNode.setflag, intOr] at h ⊢
  rw [h, Nat.or_assoc, Nat.or_self]

theorem MetaNode.clearflag_clearflag (n : MetaNode) (bit : Int) :
    (n.clearflag bit).clearflag bit = n.clearflag bit := by
  have h := MetaNode.toBits32_clearflag n bit
  have hnot : toBits32 (intNot bit) = 4294967295 - toBits32 bit := by
    simp only [intNot]
    exact toBits32_ofBits32 _ (by omega)
  simp only [MetaNode.clearflag, intAnd, hnot] at h ⊢
  rw [h, Nat.and_assoc, Nat.and_self]

/-- What `setflag` and `clearflag` of one flag constant do to the test of a flag constant. -/
theorem MetaNode.testflag_after (n : MetaNode) (b c : Int) (hb : b ∈ flagConstants)
    (hc : c ∈ flagConstants) :
    (n.setflag b).testflag c = (n.testflag c || decide (c = b)) ∧
    (n.clearflag b).testflag c = (n.testflag c && !decide (c = b)) := by
  obtain ⟨jb, hjb, hb2⟩ := flagConstants_bit b hb
  obtain ⟨jc, hjc, hc2⟩ := flagConstants_bit c hc
  have hdec : decide (jb = jc) = decide (c = b) := by
    by_cases h : jb = jc
    · have : c = b := flagConstants_bit_inj c b hc hb (by rw [hb2, hc2, h])
      simp [h, this]
    · have : c ≠ b := by
        intro e
        rw [e, hb2] at hc2
        exact h (Nat.pow_right_injective (le_refl 2) hc2)
      simp [h, this]
  constructor
  · rw [MetaNode.testflag_eq_testBit _ c jc hc2, MetaNode.testflag_eq_testBit _ c jc hc2,
      MetaNode.toBits32_setflag, hb2, Nat.testBit_or, Nat.testBit_two_pow, hdec]
  · rw [MetaNode.testflag_eq_testBit _ c jc hc2, MetaNode.testflag_eq_testBit _ c jc hc2,
      MetaNode.toBits32_clearflag, hb2, Nat.testBit_and, testBit_mask jb jc (by omega), hdec]
    have : decide (jc < 32) = true := by simp; omega
    rw [this]
    simp

/-- C22: for every node and every flag constant `b`, `testflag(b)` is true after `setflag(b)`
and false after `clearflag(b)`, and in both cases `testflag(c)` is unchanged for every other
flag constant `c`, so `markskip` and `clearskip` change only `skip()`; a freshly constructed
node has the flag clear; `setflag` and `clearflag` are idempotent. -/
theorem MetaNode.flags_independent (n : MetaNode) (b c : Int) (hb : b ∈ flagConstants)
    (hc : c ∈ flagConstants) (hne : c ≠ b) :
    (n.setflag b).testflag b = true ∧
    (n.clearflag b).testflag b = false ∧
    (n.setflag b).testflag c = n.testflag c ∧
    (n.clearflag b).testflag c = n.testflag c ∧
    (∀ t : MetaType, (MetaNode.new t).testflag b = false) ∧
    (n.setflag b).setflag b = n.setflag b ∧
    (n.clearflag b).clearflag b = n.clearflag b ∧
    (n.setflag b).type = n.type ∧ (n.clearflag b).type = n.type ∧
    (∀ m : Meta, m.markskip.skip = true ∧ m.clearskip.skip = false ∧
      (c ≠ META_SKIP →
        m.markskip.toMetaNode.testflag c = m.toMetaNode.testflag c ∧
        m.clearskip.toMetaNode.testflag c = m.toMetaNode.testflag c)) := by
  have hbb := MetaNode.testflag_after n b b hb hb
  have hbc := MetaNode.testflag_after n b c hb hc
  have hskip : META_SKIP ∈ flagConstants := by decide
  refine ⟨by simp [hbb.1], by simp [hbb.2], by simp [hbc.1, hne], by simp [hbc.2, hne], ?_,
    MetaNode.setflag_setflag n b, MetaNode.clearflag_clearflag n b, rfl, rfl, ?_⟩
  · intro t
    obtain ⟨j, _, hj⟩ := flagConstants_bit b hb
    rw [MetaNode.testflag_eq_testBit _ b j hj]
    have h0 : toBits32 (MetaNode.new t).flagbits = 0 := by
      show toBits32 0 = 0
      decide
    rw [h0, Nat.zero_testBit]
  · intro m
    have h1 := MetaNode.testflag_after m.toMetaNode META_SKIP META_SKIP hskip hskip
    have h2 := MetaNode.testflag_after m.toMetaNode META_SKIP c hskip hc
    refine ⟨by simp [Meta.skip, Meta.markskip, h1.1], by simp [Meta.skip, Meta.clearskip, h1.2],
      ?_⟩
    intro hcs
    exact ⟨by simp [Meta.markskip, h2.1, hcs], by simp [Meta.clearskip, h2.2, hcs]⟩

/-- Witness of C22: a node with the flags ROOT and NEW set (6), the flag `META_SKIP` and the
other flag `META_ROOT`. -/
theorem MetaNode.flags_independent_witness :
    ((MetaNode.newFlags .KFS_FATTR 6).setflag META_SKIP).testflag META_SKIP = true ∧
    ((MetaNode.newFlags .KFS_FATTR 6).clearflag META_SKIP).testflag META_SKIP = false ∧
    ((MetaNode.newFlags .KFS_FATTR 6).setflag META_SKIP).testflag META_ROOT
      = (MetaNode.newFlags .KFS_FATTR 6).testflag META_ROOT ∧
    ((MetaNode.newFlags .KFS_FATTR 6).clearflag META_SKIP).testflag META_ROOT
      = (MetaNode.newFlags .KFS_FATTR 6).testflag META_ROOT :=
  have h := MetaNode.flags_independent (MetaNode.newFlags .KFS_FATTR 6) META_SKIP META_ROOT
    (by decide) (by decide) (by decide)
  ⟨h.1, h.2.1, h.2.2.1, h.2.2.2.1⟩

/-! ## Theorems: `setValue` and `getValue` -/

/-- The string accessor returns the mapped value of the key, or the default when the key is
absent, and leaves the map as it was. -/
theorem getValue_eq (m : PropMap) (key def_ : Str) :
    getValue m key def_ = ((m.find key).getD def_, m) := by
  cases h : m.find key with
  | none => simp [getValue, h]
  | some v => simp [getValue, h, PropMap.subscript]

theorem find_setValue_self (m : PropMap) (k v : Str) : (setValue m k v).find k = some v := by
  simp [setValue, PropMap.find_assign_self]

theorem find_setValue_ne (m : PropMap) (k v other : Str) (h : other ≠ k) :
    (setValue m k v).find other = m.find other := by
  simp only [setValue]
  rw [PropMap.find_assign_ne _ _ _ _ h, PropMap.find_subscript_ne _ _ _ h]

/-- C23: after `setValue(k, v)` the string accessor `getValue(k, d)` returns `v`, whatever
`d` and whatever was stored under `k` before, and for every other key `getValue` returns what
it returned before the call. -/
theorem setValue_getValue_roundtrip (m : PropMap) (k other v d : Str) (hne : other ≠ k) :
    (getValue (setValue m k v) k d).1 = v ∧
    (getValue (setValue m k v) other d).1 = (getValue m other d).1 := by
  rw [getValue_eq, getValue_eq, getValue_eq, find_setValue_self, find_setValue_ne m k v other hne]
  exact ⟨rfl, rfl⟩

/-- Witness of C23: in the map holding `a = 1` and `b = 2`, `setValue("a", "9")` makes
`getValue("a", "")` return `9` and leaves `getValue("b", "")` at `2`. -/
theorem setValue_getValue_roundtrip_witness :
    (getValue (setValue [("a".toList, "1".toList), ("b".toList, "2".toList)]
        "a".toList "9".toList) "a".toList "".toList).1 = "9".toList ∧
    (getValue (setValue [("a".toList, "1".toList), ("b".toList, "2".toList)]
        "a".toList "9".toList) "b".toList "".toList).1
      = (getValue [("a".toList, "1".toList), ("b".toList, "2".toList)]
          "b".toList "".toList).1 :=
  setValue_getValue_roundtrip [("a".toList, "1".toList), ("b".toList, "2".toList)]
    "a".toList "b".toList "9".toList "".toList (by decide)

end KFS
